import Mathlib

/-!
# Floyd-Warshall all-pairs shortest paths: embedding and verification

Shallow embedding of `src/core/constants.h`, `src/data_structures/graph.c`,
`src/utils/memory_manager.c` (the two allocators) and `src/core/floyd_warshall.c`.

Modelling conventions
* C `double` values are exact rationals (`ℚ`): rounding is not modelled.
* C `int` values are `Int`; loop counters that range over `0 .. n-1` are `Nat`.
* A pointer that may be `NULL` is an `Option`; `none` is `NULL`.
* A `double **` / `int **` matrix is a list of rows (`Table`).  Reading a cell that
  lies outside the allocated rows, or a cell of a `NULL` matrix, is undefined behaviour
  in C; here it yields a default value (zero) and writing such a cell changes nothing.
  An `int` used as an index is converted with `Int.toNat`; the functions check their
  index arguments before any access, and a negative value read back from the successor
  matrix (other than the tested `-1`) would again be undefined behaviour in C.
* `while` loops that need not terminate take a step budget (`fuel`).
* A function that mutates the graph it is given returns the new graph state.
* `clock()` timing (`execution_time`) and the allocation statistics are not modelled.
-/

namespace FloydWarshall

/-! ## constants.h -/

/-- Maximum number of vertices in a graph (`MAX_VERTICES`). -/
def MAX_VERTICES : Int := 1000

/-- Infinity representation for unreachable vertices (`INFINITY_VALUE`, `1e9`). -/
def INFINITY_VALUE : ℚ := 1000000000

/-- Epsilon for floating point comparisons (`EPSILON`, `1e-9`). -/
def EPSILON : ℚ := 1 / 1000000000

/-- Return codes for functions (`ReturnCode`). -/
inductive ReturnCode where
  | SUCCESS
  | ERROR_MEMORY_ALLOCATION
  | ERROR_INVALID_INPUT
  | ERROR_FILE_IO
  | ERROR_NEGATIVE_CYCLE
  | ERROR_NULL_POINTER
  deriving DecidableEq, Repr

open ReturnCode

/-- The C library function `fabs`. -/
def fabs (x : ℚ) : ℚ := if x < 0 then -x else x

/-! ## Matrices -/

/-- A heap matrix: the list of its rows. -/
abbrev Table (α : Type) := List (List α)

/-- Read of `t[i][j]`; `dflt` stands for the unspecified result of a read outside the rows. -/
def tget {α : Type} (dflt : α) (t : Table α) (i j : Nat) : α :=
  ((t[i]?).getD [])[j]?.getD dflt

/-- Write `t[i][j] = v`. -/
def tset {α : Type} (t : Table α) (i j : Nat) (v : α) : Table α :=
  List.set t i (List.set ((t[i]?).getD []) j v)

/-- Allocator `allocate_2d_double` (allocation itself is assumed to succeed; the cell
contents are unspecified in C and are zero here). -/
def allocate_2d_double (rows cols : Int) : Option (Table ℚ) :=
  if rows ≤ 0 ∨ cols ≤ 0 then none
  else some (List.replicate rows.toNat (List.replicate cols.toNat 0))

/-- Allocator `allocate_2d_int` (allocation itself is assumed to succeed). -/
def allocate_2d_int (rows cols : Int) : Option (Table Int) :=
  if rows ≤ 0 ∨ cols ≤ 0 then none
  else some (List.replicate rows.toNat (List.replicate cols.toNat 0))

/-! ## graph.h / graph.c -/

/-- Graph structure for Floyd-Warshall algorithm (`Graph`). -/
structure Graph where
  /-- Number of vertices in the graph. -/
  vertices : Int
  /-- Distance matrix (`NULL` is `none`). -/
  distance : Option (Table ℚ)
  /-- Next vertex matrix for path reconstruction (`NULL` is `none`). -/
  next : Option (Table Int)
  /-- Flag to check if graph is properly initialized. -/
  is_initialized : Bool
  deriving DecidableEq

/-- The expression `graph->distance[i][j]`. -/
def Graph.dist (g : Graph) (i j : Nat) : ℚ := tget 0 (g.distance.getD []) i j

/-- The expression `graph->next[i][j]`. -/
def Graph.nxt (g : Graph) (i j : Nat) : Int := tget 0 (g.next.getD []) i j

/-- The assignment `graph->distance[i][j] = v`. -/
def Graph.setDist (g : Graph) (i j : Nat) (v : ℚ) : Graph :=
  { g with distance := g.distance.map (fun t => tset t i j v) }

/-- The assignment `graph->next[i][j] = v`. -/
def Graph.setNext (g : Graph) (i j : Nat) (v : Int) : Graph :=
  { g with next := g.next.map (fun t => tset t i j v) }

/-- Body of the double loop of `graph_initialize` for one cell. -/
def init_cell (g : Graph) (i j : Nat) : Graph :=
  (g.setDist i j (if i = j then 0 else INFINITY_VALUE)).setNext i j (-1)

/-- Function `graph_initialize`. -/
def graph_initialize (graph : Option Graph) : ReturnCode × Option Graph :=
  match graph with
  | none => (ERROR_NULL_POINTER, none)
  | some g =>
    let n := g.vertices.toNat
    let g1 := (List.range n).foldl
      (fun g i => (List.range n).foldl (fun g j => init_cell g i j) g) g
    (SUCCESS, some { g1 with is_initialized := true })

/-- Function `graph_create`. -/
def graph_create (vertices : Int) : Option Graph :=
  if vertices ≤ 0 ∨ vertices > MAX_VERTICES then none
  else
    match allocate_2d_double vertices vertices with
    | none => none
    | some d =>
      match allocate_2d_int vertices vertices with
      | none => none
      | some nx =>
        let graph : Graph :=
          { vertices := vertices, distance := some d, next := some nx, is_initialized := false }
        match graph_initialize (some graph) with
        | (SUCCESS, r) => r
        | _ => none

/-- Function `graph_add_edge`. -/
def graph_add_edge (graph : Option Graph) (from_v to_v : Int) (weight : ℚ) :
    ReturnCode × Option Graph :=
  match graph with
  | none => (ERROR_NULL_POINTER, none)
  | some g =>
    if !g.is_initialized then (ERROR_NULL_POINTER, graph)
    else if from_v < 0 ∨ from_v ≥ g.vertices ∨ to_v < 0 ∨ to_v ≥ g.vertices then
      (ERROR_INVALID_INPUT, graph)
    else
      (SUCCESS, some ((g.setDist from_v.toNat to_v.toNat weight).setNext
        from_v.toNat to_v.toNat to_v))

/-- Function `graph_get_edge`. -/
def graph_get_edge (graph : Option Graph) (from_v to_v : Int) : ℚ :=
  match graph with
  | none => INFINITY_VALUE
  | some g =>
    if !g.is_initialized ∨ from_v < 0 ∨ from_v ≥ g.vertices ∨ to_v < 0 ∨ to_v ≥ g.vertices then
      INFINITY_VALUE
    else g.dist from_v.toNat to_v.toNat

/-- Function `graph_has_edge`. -/
def graph_has_edge (graph : Option Graph) (from_v to_v : Int) : Bool :=
  match graph with
  | none => false
  | some g =>
    if !g.is_initialized ∨ from_v < 0 ∨ from_v ≥ g.vertices ∨ to_v < 0 ∨ to_v ≥ g.vertices then
      false
    else decide (g.dist from_v.toNat to_v.toNat < INFINITY_VALUE)

/-- Function `graph_validate`. -/
def graph_validate (graph : Option Graph) : ReturnCode :=
  match graph with
  | none => ERROR_NULL_POINTER
  | some g =>
    if !g.is_initialized then ERROR_INVALID_INPUT
    else if g.vertices ≤ 0 ∨ g.vertices > MAX_VERTICES then ERROR_INVALID_INPUT
    else if g.distance.isNone ∨ g.next.isNone then ERROR_NULL_POINTER
    else if (List.range g.vertices.toNat).any (fun i => decide (fabs (g.dist i i) > EPSILON))
      then ERROR_INVALID_INPUT
    else SUCCESS

/-- Body of the copy loop of `graph_copy` for one cell. -/
def copy_cell (original copy : Graph) (i j : Nat) : Graph :=
  (copy.setDist i j (original.dist i j)).setNext i j (original.nxt i j)

/-- Function `graph_copy`. -/
def graph_copy (original : Option Graph) : Option Graph :=
  match original with
  | none => none
  | some o =>
    if !o.is_initialized then none
    else
      match graph_create o.vertices with
      | none => none
      | some c =>
        let n := o.vertices.toNat
        some ((List.range n).foldl
          (fun c i => (List.range n).foldl (fun c j => copy_cell o c i j) c) c)

/-! ## floyd_warshall.h / floyd_warshall.c -/

/-- Result structure for Floyd-Warshall algorithm execution (`FloydWarshallResult`);
the field `execution_time` is not modelled. -/
structure FloydWarshallResult where
  /-- Flag indicating successful execution. -/
  success : Bool
  /-- Number of iterations performed. -/
  iterations : Int
  /-- Flag indicating presence of negative cycle. -/
  has_negative_cycle : Bool
  /-- Vertex where negative cycle is detected (-1 if none). -/
  negative_cycle_vertex : Int
  deriving DecidableEq, Repr

/-- The initial value `{false, 0.0, 0, false, -1}` of `result`. -/
def result_init : FloydWarshallResult :=
  { success := false, iterations := 0, has_negative_cycle := false, negative_cycle_vertex := -1 }

/-- Body of the innermost loop of `floyd_warshall_execute` after `iterations++`:
the guarded relaxation of `distance[i][j]` through `k`. -/
def relax (g : Graph) (k i j : Nat) : Graph :=
  if g.dist i k < INFINITY_VALUE ∧ g.dist k j < INFINITY_VALUE then
    let new_distance := g.dist i k + g.dist k j
    if new_distance < g.dist i j then
      (g.setDist i j new_distance).setNext i j (g.nxt i k)
    else g
  else g

/-- The `j` loop of `floyd_warshall_execute` on the pair (graph, iterations). -/
def fw_row (n k i : Nat) (s : Graph × Int) : Graph × Int :=
  (List.range n).foldl (fun s j => (relax s.1 k i j, s.2 + 1)) s

/-- The `i` loop of `floyd_warshall_execute`. -/
def fw_pass (n k : Nat) (s : Graph × Int) : Graph × Int :=
  (List.range n).foldl (fun s i => fw_row n k i s) s

/-- The `k` loop of `floyd_warshall_execute` (main loop). -/
def fw_main (n : Nat) (s : Graph × Int) : Graph × Int :=
  (List.range n).foldl (fun s k => fw_pass n k s) s

/-- The scan `for (i...) if (distance[i][i] < -EPSILON) { ...; break; }`: the first
vertex with a diagonal entry below `-EPSILON`, if any. -/
def negative_cycle_scan (g : Graph) (n : Nat) : Option Nat :=
  (List.range n).find? (fun i => decide (g.dist i i < -EPSILON))

/-- The report filled in after the relaxation loops. -/
def fill_result (g : Graph) (n : Nat) (iterations : Int) : FloydWarshallResult :=
  match negative_cycle_scan g n with
  | some i =>
    { success := true, iterations := iterations, has_negative_cycle := true,
      negative_cycle_vertex := (i : Int) }
  | none =>
    { success := true, iterations := iterations, has_negative_cycle := false,
      negative_cycle_vertex := -1 }

/-- Function `floyd_warshall_execute`: the report and the graph as it is left. -/
def floyd_warshall_execute (graph : Option Graph) : FloydWarshallResult × Option Graph :=
  match graph with
  | none => (result_init, none)
  | some g =>
    if !g.is_initialized then (result_init, graph)
    else if graph_validate graph ≠ SUCCESS then (result_init, graph)
    else
      let n := g.vertices.toNat
      let s := fw_main n (g, 0)
      (fill_result s.1 n s.2, some s.1)

/-- Body of the innermost loop of `floyd_warshall_execute_optimized` after
`iterations++`, on the pair (graph, changed). -/
def relax_opt (s : Graph × Bool) (k i j : Nat) : Graph × Bool :=
  let g := s.1
  if g.dist i k < INFINITY_VALUE ∧ g.dist k j < INFINITY_VALUE then
    let new_distance := g.dist i k + g.dist k j
    if new_distance < g.dist i j - EPSILON then
      ((g.setDist i j new_distance).setNext i j (g.nxt i k), true)
    else s
  else s

/-- Loop state of `floyd_warshall_execute_optimized`. -/
structure OptState where
  /-- The graph being relaxed. -/
  graph : Graph
  /-- The counter `iterations`. -/
  iterations : Int
  /-- The flag `changed`. -/
  changed : Bool

/-- One inner step of the optimized variant. -/
def opt_step (k i : Nat) (s : OptState) (j : Nat) : OptState :=
  let r := relax_opt (s.graph, s.changed) k i j
  { graph := r.1, iterations := s.iterations + 1, changed := r.2 }

/-- The `i` and `j` loops of `floyd_warshall_execute_optimized` for one `k`. -/
def opt_pass (n k : Nat) (s : OptState) : OptState :=
  (List.range n).foldl (fun s i => (List.range n).foldl (opt_step k i) s) s

/-- The loop `for (k = 0; k < n && changed; k++) { changed = false; ... }`: once
`changed` is false at the loop test the loop is left, so no later `k` runs. -/
def opt_main (n : Nat) (s : OptState) : OptState :=
  (List.range n).foldl
    (fun s k => if s.changed then opt_pass n k { s with changed := false } else s) s

/-- Function `floyd_warshall_execute_optimized`. -/
def floyd_warshall_execute_optimized (graph : Option Graph) :
    FloydWarshallResult × Option Graph :=
  match graph with
  | none => (result_init, none)
  | some g =>
    if !g.is_initialized then (result_init, graph)
    else if graph_validate graph ≠ SUCCESS then (result_init, graph)
    else
      let n := g.vertices.toNat
      let s := opt_main n { graph := g, iterations := 0, changed := true }
      (fill_result s.graph n s.iterations, some s.graph)

/-- Function `floyd_warshall_get_distance`. -/
def floyd_warshall_get_distance (graph : Option Graph) (start end_v : Int) : ℚ :=
  match graph with
  | none => INFINITY_VALUE
  | some g =>
    if !g.is_initialized ∨ start < 0 ∨ start ≥ g.vertices ∨ end_v < 0 ∨ end_v ≥ g.vertices then
      INFINITY_VALUE
    else g.dist start.toNat end_v.toNat

/-- Function `floyd_warshall_detect_negative_cycle`. -/
def floyd_warshall_detect_negative_cycle (graph : Option Graph) : Bool :=
  match graph with
  | none => false
  | some g =>
    if !g.is_initialized then false
    else (List.range g.vertices.toNat).any (fun i => decide (g.dist i i < -EPSILON))

/-- Outcome of the counting loop of `floyd_warshall_get_path`. -/
inductive CountResult where
  /-- The loop was still running when the step budget ran out. -/
  | running
  /-- The walk reached `-1` (the function returns `NULL`). -/
  | no_path
  /-- The walk reached `end` with this value of `count`. -/
  | counted (count : Nat)
  deriving DecidableEq, Repr

/-- The loop `while (current != end) { current = next[current][end]; if (current == -1)
return NULL; count++; }`, run for at most `fuel` iterations. -/
def path_count (g : Graph) (end_v : Int) : Nat → Int → Nat → CountResult
  | 0, current, count => if current = end_v then .counted count else .running
  | fuel + 1, current, count =>
    if current = end_v then .counted count
    else
      let current := g.nxt current.toNat end_v.toNat
      if current = -1 then .no_path
      else path_count g end_v fuel current (count + 1)

/-- The loop `for (i = 1; i < count; i++) { current = next[current][end]; path[i] = current; }`:
the entries `path[1 ..]`, with `steps = count - 1`. -/
def path_build (g : Graph) (end_v : Int) : Nat → Int → List Int
  | 0, _ => []
  | steps + 1, current =>
    let current := g.nxt current.toNat end_v.toNat
    current :: path_build g end_v steps current

/-- Function `floyd_warshall_get_path` with a step budget for its `while` loop
(`path_length` non-null, `malloc` succeeding).  The result is `none` when the loop does
not finish within `fuel` steps; otherwise the returned pointer (`none` is `NULL`) and the
value stored in `*path_length`. -/
def floyd_warshall_get_path (fuel : Nat) (graph : Option Graph) (start end_v : Int) :
    Option (Option (List Int) × Int) :=
  match graph with
  | none => some (none, 0)
  | some g =>
    if !g.is_initialized ∨ start < 0 ∨ start ≥ g.vertices ∨ end_v < 0 ∨ end_v ≥ g.vertices then
      some (none, 0)
    else if g.dist start.toNat end_v.toNat ≥ INFINITY_VALUE then some (none, 0)
    else
      match path_count g end_v fuel start 1 with
      | .running => none
      | .no_path => some (none, 0)
      | .counted count =>
        some (some (start :: path_build g end_v (count - 1) start), (count : Int))

/-! ## Building an input graph -/

/-- An edge insertion request `(from, to, weight)`. -/
abbrev EdgeReq := Int × Int × ℚ

/-- Successive calls of `graph_add_edge`, return codes ignored (as the callers do). -/
def add_edges (graph : Option Graph) (es : List EdgeReq) : Option Graph :=
  es.foldl (fun g e => (graph_add_edge g e.1 e.2.1 e.2.2).2) graph

/-- A graph built by `graph_create` followed by `graph_add_edge` calls. -/
def build_graph (n : Int) (es : List EdgeReq) : Option Graph :=
  add_edges (graph_create n) es

/-! ## Specification vocabulary -/

/-- A table with `n` rows of `n` cells. -/
def TShape {α : Type} (n : Nat) (t : Table α) : Prop :=
  t.length = n ∧ ∀ r ∈ t, r.length = n

/-- Both matrices of the graph are allocated with `n` rows of `n` cells, `n` being the
vertex count. -/
def Graph.WF (n : Nat) (g : Graph) : Prop :=
  g.vertices = (n : Int) ∧
    ∃ D N, g.distance = some D ∧ g.next = some N ∧ TShape n D ∧ TShape n N

/-! ## The relaxation loops on the graph alone -/

/-- The `j` loop applied to the graph (the iteration counter left out). -/
def relax_row (n k i : Nat) (g : Graph) : Graph :=
  (List.range n).foldl (fun g j => relax g k i j) g

/-- The `i` loop applied to the graph. -/
def relax_pass (n k : Nat) (g : Graph) : Graph :=
  (List.range n).foldl (fun g i => relax_row n k i g) g

/-- The first `m` rounds of the `k` loop applied to the graph. -/
def relax_upto (n m : Nat) (g : Graph) : Graph :=
  (List.range m).foldl (fun g k => relax_pass n k g) g

/-- The relaxation of `(i, j)` through `k` fires in state `g`. -/
def fires (g : Graph) (k i j : Nat) : Prop :=
  g.dist i k < INFINITY_VALUE ∧ g.dist k j < INFINITY_VALUE ∧
    g.dist i k + g.dist k j < g.dist i j

/-! ## Input graphs, walks and their weights -/

/-- No request is a self-loop. -/
def NoSelfLoop (es : List EdgeReq) : Prop := ∀ e ∈ es, e.1 ≠ e.2.1

instance noSelfLoop_decidable (es : List EdgeReq) : Decidable (NoSelfLoop es) := by
  unfold NoSelfLoop
  infer_instance

instance fires_decidable (g : Graph) (k i j : Nat) : Decidable (fires g k i j) := by
  unfold fires
  infer_instance

/-- The graph that `graph_create(4)` and the requests of scenario 1 build. -/
def scenario1_graph : Graph :=
  { vertices := 4,
    distance := some [[0, 3, INFINITY_VALUE, 7], [8, 0, 2, INFINITY_VALUE],
      [5, INFINITY_VALUE, 0, 1], [2, INFINITY_VALUE, INFINITY_VALUE, 0]],
    next := some [[-1, 1, -1, 3], [0, -1, 2, -1], [0, -1, -1, 3], [0, -1, -1, -1]],
    is_initialized := true }

/-- A chain `0 -> 1 -> 2` whose first pass (`k = 0`) relaxes nothing. -/
def chain_edges : List EdgeReq := [(0, 1, 5), (1, 2, 3)]

/-- A negative cycle `1 -> 2 -> 1` away from vertex `0`. -/
def late_cycle_edges : List EdgeReq := [(1, 2, 1), (2, 1, -3)]

/-- The graph that `graph_create(2)` returns. -/
def fresh2_graph : Graph :=
  { vertices := 2, distance := some [[0, INFINITY_VALUE], [INFINITY_VALUE, 0]],
    next := some [[-1, -1], [-1, -1]], is_initialized := true }

/-- The pair (graph, iterations) of `floyd_warshall_execute` at the point where the loop
variables stand at `k`, `i`, `j`: `k` passes, `i` rows of pass `k` and `j` steps of row
`i` are done. -/
def fw_until (n k i j : Nat) (g : Graph) : Graph × Int :=
  fw_row j k i ((List.range i).foldl (fun s i => fw_row n k i s)
    ((List.range k).foldl (fun s k => fw_pass n k s) (g, 0)))

/-- The successor walk towards `end_v`: the value of `current` after `t` assignments
`current = next[current][end]`, starting from `c`. -/
def succ_walk (g : Graph) (end_v : Int) : Nat → Int → Int
  | 0, c => c
  | t + 1, c => succ_walk g end_v t (g.nxt c.toNat end_v.toNat)

/-- Graphs reachable from `graph_create` by successful `graph_add_edge` calls whose weight is
below `INFINITY_VALUE` and by `floyd_warshall_execute` runs. -/
inductive Reachable : Graph → Prop
  | create (n : Int) (g : Graph) : graph_create n = some g → Reachable g
  | add (g g2 : Graph) (from_v to_v : Int) (w : ℚ) : Reachable g → w < INFINITY_VALUE →
      graph_add_edge (some g) from_v to_v w = (SUCCESS, some g2) → Reachable g2
  | exec (g g2 : Graph) : Reachable g → (floyd_warshall_execute (some g)).2 = some g2 →
      Reachable g2

/-- The relation between the two matrices kept by insertion and relaxation: entries never exceed
the sentinel, a successor `-1` goes with the initial distance, any other successor with a
distance below the sentinel. -/
def SuccInv (n : Nat) (g : Graph) : Prop :=
  ∀ i j, i < n → j < n →
    g.dist i j ≤ INFINITY_VALUE ∧
    (g.nxt i j = -1 → g.dist i j = if i = j then 0 else INFINITY_VALUE) ∧
    (g.nxt i j ≠ -1 → g.dist i j < INFINITY_VALUE)

/-- The graph `graph_create(2)` after `graph_add_edge(0, 1, 5.0)`. -/
def one_arc_graph : Graph :=
  { vertices := 2
    distance := some [[0, 5], [INFINITY_VALUE, 0]]
    next := some [[-1, 1], [-1, -1]]
    is_initialized := true }

/-- The graph `graph_create(2)` after `graph_add_edge(0, 1, 2e9)`. -/
def heavy_arc_graph : Graph :=
  { vertices := 2
    distance := some [[0, 2000000000], [INFINITY_VALUE, 0]]
    next := some [[-1, 1], [-1, -1]]
    is_initialized := true }

/-- A graph structure with 2 x 2 matrices on which `graph_initialize` has not run (the state
inside `graph_create` between the allocations and the initialisation). -/
def raw2_graph : Graph :=
  { vertices := 2
    distance := some [[0, 0], [0, 0]]
    next := some [[0, 0], [0, 0]]
    is_initialized := false }

/-- Graphs reachable from `graph_create` by successful `graph_add_edge` calls (any weight) and
by runs of `floyd_warshall_execute` or `floyd_warshall_execute_optimized`. -/
inductive ReachableAny : Graph → Prop
  | create (n : Int) (g : Graph) : graph_create n = some g → ReachableAny g
  | add (g g2 : Graph) (from_v to_v : Int) (w : ℚ) : ReachableAny g →
      graph_add_edge (some g) from_v to_v w = (SUCCESS, some g2) → ReachableAny g2
  | exec (g g2 : Graph) : ReachableAny g → (floyd_warshall_execute (some g)).2 = some g2 →
      ReachableAny g2
  | exec_opt (g g2 : Graph) : ReachableAny g →
      (floyd_warshall_execute_optimized (some g)).2 = some g2 → ReachableAny g2

/-- The safety relation of the successor matrix: every entry is `-1` or a vertex index, and an
entry `-1` goes with the distance written by `graph_initialize`. -/
def SuccSafe (n : Nat) (g : Graph) : Prop :=
  ∀ i j, i < n → j < n →
    (g.nxt i j = -1 ∨ (0 ≤ g.nxt i j ∧ g.nxt i j < (n : Int))) ∧
    (g.nxt i j = -1 → g.dist i j = if i = j then 0 else INFINITY_VALUE)

/-- The test under which the optimized variant overwrites `distance[i][j]` through `k` in
state `g`: both guards hold and the candidate is below `distance[i][j] - EPSILON`. -/
def opt_fires (g : Graph) (k i j : Nat) : Prop :=
  g.dist i k < INFINITY_VALUE ∧ g.dist k j < INFINITY_VALUE ∧
    g.dist i k + g.dist k j < g.dist i j - EPSILON

instance opt_fires_decidable (g : Graph) (k i j : Nat) : Decidable (opt_fires g k i j) := by
  unfold opt_fires
  infer_instance

/-- The passes `k = 0, ..., p - 1` of `floyd_warshall_execute_optimized`, each started with
`changed = false` and run in full. -/
def opt_run (n p : Nat) (s : OptState) : OptState :=
  (List.range p).foldl (fun s k => opt_pass n k { s with changed := false }) s

/-- The state of pass `k` of `floyd_warshall_execute_optimized` just before its step
`(i, j)`, the pass having started in state `s`. -/
def opt_until (n k i j : Nat) (s : OptState) : OptState :=
  (List.range j).foldl (opt_step k i)
    ((List.range i).foldl (fun s i => (List.range n).foldl (opt_step k i) s) s)

theorem tget_tset {α : Type} (dflt : α) {n : Nat} {t : Table α} (ht : TShape n t)
    {i j : Nat} (hi : i < n) (hj : j < n) (v : α) (a b : Nat) :
    tget dflt (tset t i j v) a b = if a = i ∧ b = j then v else tget dflt t a b := by
  obtain ⟨hlen, hrow⟩ := ht
  have hil : i < t.length := by omega
  have hrl : (t[i]).length = n := hrow _ (List.getElem_mem _)
  unfold tget tset
  by_cases hai : a = i
  · subst hai
    simp only [List.getElem?_set_self hil, Option.getD_some, List.getElem?_eq_getElem hil,
      true_and]
    by_cases hbj : b = j
    · subst hbj
      simp [List.getElem?_set_self (show b < (t[a]).length by omega)]
    · simp [hbj, List.getElem?_set_ne (Ne.symm hbj)]
  · simp [hai, List.getElem?_set_ne (Ne.symm hai)]

theorem tshape_tset {α : Type} {n : Nat} {t : Table α} (ht : TShape n t)
    (i j : Nat) (v : α) : TShape n (tset t i j v) := by
  obtain ⟨hlen, hrow⟩ := ht
  refine ⟨by simp [tset, hlen], ?_⟩
  intro r hr
  unfold tset at hr
  rcases List.mem_or_eq_of_mem_set hr with h | h
  · exact hrow r h
  · subst h
    rw [List.length_set]
    by_cases hi : i < t.length
    · simp only [List.getElem?_eq_getElem hi, Option.getD_some]
      exact hrow _ (List.getElem_mem _)
    · rw [List.set_eq_of_length_le (by omega)] at hr
      have := hrow _ hr
      rw [List.length_set] at this
      exact this

/-! ## Reading and writing graph cells -/

theorem Graph.WF.setDist {n : Nat} {g : Graph} (h : g.WF n) (i j : Nat) (v : ℚ) :
    (g.setDist i j v).WF n := by
  obtain ⟨hv, D, N, hD, hN, hDs, hNs⟩ := h
  exact ⟨hv, tset D i j v, N, by simp [Graph.setDist, hD], hN, tshape_tset hDs i j v, hNs⟩

theorem Graph.WF.setNext {n : Nat} {g : Graph} (h : g.WF n) (i j : Nat) (v : Int) :
    (g.setNext i j v).WF n := by
  obtain ⟨hv, D, N, hD, hN, hDs, hNs⟩ := h
  exact ⟨hv, D, tset N i j v, hD, by simp [Graph.setNext, hN], hDs, tshape_tset hNs i j v⟩

theorem dist_setDist {n : Nat} {g : Graph} (h : g.WF n) {i j : Nat} (hi : i < n) (hj : j < n)
    (v : ℚ) (a b : Nat) :
    (g.setDist i j v).dist a b = if a = i ∧ b = j then v else g.dist a b := by
  obtain ⟨_, D, N, hD, _, hDs, _⟩ := h
  simp only [Graph.dist, Graph.setDist, hD, Option.map_some', Option.getD_some]
  exact tget_tset 0 hDs hi hj v a b

theorem nxt_setNext {n : Nat} {g : Graph} (h : g.WF n) {i j : Nat} (hi : i < n) (hj : j < n)
    (v : Int) (a b : Nat) :
    (g.setNext i j v).nxt a b = if a = i ∧ b = j then v else g.nxt a b := by
  obtain ⟨_, D, N, _, hN, _, hNs⟩ := h
  simp only [Graph.nxt, Graph.setNext, hN, Option.map_some', Option.getD_some]
  exact tget_tset 0 hNs hi hj v a b

@[simp] theorem nxt_setDist (g : Graph) (i j : Nat) (v : ℚ) (a b : Nat) :
    (g.setDist i j v).nxt a b = g.nxt a b := rfl

@[simp] theorem dist_setNext (g : Graph) (i j : Nat) (v : Int) (a b : Nat) :
    (g.setNext i j v).dist a b = g.dist a b := rfl

@[simp] theorem init_setDist (g : Graph) (i j : Nat) (v : ℚ) :
    (g.setDist i j v).is_initialized = g.is_initialized := rfl

@[simp] theorem init_setNext (g : Graph) (i j : Nat) (v : Int) :
    (g.setNext i j v).is_initialized = g.is_initialized := rfl

@[simp] theorem vertices_setDist (g : Graph) (i j : Nat) (v : ℚ) :
    (g.setDist i j v).vertices = g.vertices := rfl

@[simp] theorem vertices_setNext (g : Graph) (i j : Nat) (v : Int) :
    (g.setNext i j v).vertices = g.vertices := rfl

/-- A loop `for (x = 0; x < m; x++)` run one more round. -/
theorem foldl_range_succ {σ : Type} (f : σ → Nat → σ) (s : σ) (m : Nat) :
    (List.range (m + 1)).foldl f s = f ((List.range m).foldl f s) m := by
  rw [List.range_succ, List.foldl_append]
  rfl

/-! ## graph_initialize and graph_create -/

theorem init_cell_spec {n : Nat} {g : Graph} (h : g.WF n) {i j : Nat} (hi : i < n) (hj : j < n) :
    (init_cell g i j).WF n ∧ (init_cell g i j).is_initialized = g.is_initialized ∧
    (∀ a b, (init_cell g i j).dist a b =
      if a = i ∧ b = j then (if i = j then 0 else INFINITY_VALUE) else g.dist a b) ∧
    (∀ a b, (init_cell g i j).nxt a b = if a = i ∧ b = j then -1 else g.nxt a b) := by
  refine ⟨(h.setDist i j _).setNext i j _, rfl, ?_, ?_⟩
  · intro a b
    simp only [init_cell, dist_setNext]
    exact dist_setDist h hi hj _ a b
  · intro a b
    simp only [init_cell]
    rw [nxt_setNext (h.setDist i j _) hi hj]
    simp

theorem init_row_spec {n : Nat} {g : Graph} (h : g.WF n) {i : Nat} (hi : i < n) (m : Nat)
    (hm : m ≤ n) :
    ((List.range m).foldl (fun g j => init_cell g i j) g).WF n ∧
    ((List.range m).foldl (fun g j => init_cell g i j) g).is_initialized = g.is_initialized ∧
    (∀ a b, ((List.range m).foldl (fun g j => init_cell g i j) g).dist a b =
      if a = i ∧ b < m then (if a = b then 0 else INFINITY_VALUE) else g.dist a b) ∧
    (∀ a b, ((List.range m).foldl (fun g j => init_cell g i j) g).nxt a b =
      if a = i ∧ b < m then -1 else g.nxt a b) := by
  induction m with
  | zero => simp [h]
  | succ m ih =>
    obtain ⟨hw, hin, hd, hx⟩ := ih (by omega)
    rw [foldl_range_succ]
    obtain ⟨hw2, hin2, hd2, hx2⟩ := init_cell_spec hw hi (show m < n by omega)
    refine ⟨hw2, by rw [hin2, hin], ?_, ?_⟩
    · intro a b
      rw [hd2, hd]
      by_cases ha : a = i
      · subst ha
        by_cases hb : b = m
        · subst hb; simp
        · have : (b < m + 1) ↔ b < m := by omega
          simp [hb, this]
      · simp [ha]
    · intro a b
      rw [hx2, hx]
      by_cases ha : a = i
      · subst ha
        by_cases hb : b = m
        · subst hb; simp
        · have : (b < m + 1) ↔ b < m := by omega
          simp [hb, this]
      · simp [ha]

theorem init_loops_spec {n : Nat} {g : Graph} (h : g.WF n) (m : Nat) (hm : m ≤ n) :
    ((List.range m).foldl
      (fun g i => (List.range n).foldl (fun g j => init_cell g i j) g) g).WF n ∧
    ((List.range m).foldl
      (fun g i => (List.range n).foldl (fun g j => init_cell g i j) g) g).is_initialized
        = g.is_initialized ∧
    (∀ a b, ((List.range m).foldl
      (fun g i => (List.range n).foldl (fun g j => init_cell g i j) g) g).dist a b =
      if a < m ∧ b < n then (if a = b then 0 else INFINITY_VALUE) else g.dist a b) ∧
    (∀ a b, ((List.range m).foldl
      (fun g i => (List.range n).foldl (fun g j => init_cell g i j) g) g).nxt a b =
      if a < m ∧ b < n then -1 else g.nxt a b) := by
  induction m with
  | zero => simp [h]
  | succ m ih =>
    obtain ⟨hw, hin, hd, hx⟩ := ih (by omega)
    rw [foldl_range_succ]
    obtain ⟨hw2, hin2, hd2, hx2⟩ := init_row_spec hw (show m < n by omega) n (le_refl n)
    refine ⟨hw2, by rw [hin2, hin], ?_, ?_⟩
    · intro a b
      rw [hd2, hd]
      by_cases ha : a = m
      · subst ha; simp
      · have : (a < m + 1) ↔ a < m := by omega
        simp [ha, this]
    · intro a b
      rw [hx2, hx]
      by_cases ha : a = m
      · subst ha; simp
      · have : (a < m + 1) ↔ a < m := by omega
        simp [ha, this]

theorem tshape_replicate {α : Type} (n : Nat) (x : α) :
    TShape n (List.replicate n (List.replicate n x)) := by
  refine ⟨by simp, ?_⟩
  intro r hr
  rw [List.eq_of_mem_replicate hr]
  simp

/-- What `graph_create` returns for a vertex count in range. -/
theorem graph_create_spec (n : Nat) (h1 : 0 < n) (h2 : (n : Int) ≤ MAX_VERTICES) :
    ∃ g, graph_create (n : Int) = some g ∧ g.WF n ∧ g.is_initialized = true ∧
      (∀ a b, a < n → b < n → g.dist a b = if a = b then 0 else INFINITY_VALUE) ∧
      (∀ a b, a < n → b < n → g.nxt a b = -1) := by
  have hn : ¬ ((n : Int) ≤ 0 ∨ (n : Int) > MAX_VERTICES) := by
    intro h
    rcases h with h | h
    · omega
    · exact absurd h2 (not_le.mpr h)
  have hn0 : ¬ ((n : Int) ≤ 0 ∨ (n : Int) ≤ 0) := by omega
  let g0 : Graph :=
    { vertices := (n : Int), distance := some (List.replicate n (List.replicate n 0)),
      next := some (List.replicate n (List.replicate n 0)), is_initialized := false }
  have hw0 : g0.WF n := ⟨rfl, _, _, rfl, rfl, tshape_replicate n 0, tshape_replicate n 0⟩
  obtain ⟨hw, _, hd, hx⟩ := init_loops_spec hw0 n (le_refl n)
  refine ⟨{ (List.range n).foldl
      (fun g i => (List.range n).foldl (fun g j => init_cell g i j) g) g0 with
      is_initialized := true }, ?_, ?_, rfl, ?_, ?_⟩
  · simp only [graph_create, hn, if_false, allocate_2d_double, allocate_2d_int, hn0,
      graph_initialize, Int.toNat_ofNat]
  · obtain ⟨hv, D, N, hD, hN, hDs, hNs⟩ := hw
    exact ⟨hv, D, N, hD, hN, hDs, hNs⟩
  · intro a b ha hb
    have := hd a b
    simp only [ha, hb, and_self, if_true] at this
    exact this
  · intro a b ha hb
    have := hx a b
    simp only [ha, hb, and_self, if_true] at this
    exact this

theorem graph_create_none_iff (n : Int) :
    graph_create n = none ↔ (n ≤ 0 ∨ n > MAX_VERTICES) := by
  constructor
  · intro h
    by_contra hc
    have hpos : 0 < n := by
      by_contra h0
      exact hc (Or.inl (by omega))
    have hle : n ≤ MAX_VERTICES := by
      by_contra h0
      exact hc (Or.inr (not_le.mp h0))
    obtain ⟨m, rfl⟩ := Int.eq_ofNat_of_zero_le (le_of_lt hpos)
    obtain ⟨g, hg, _⟩ := graph_create_spec m (by omega) hle
    rw [hg] at h
    exact absurd h (by simp)
  · intro h
    simp [graph_create, h]

/-- Claim C9: `graph_create(n)` returns no graph exactly when `n <= 0` or
`n > MAX_VERTICES` (allocation succeeding); for `1 <= n <= 1000` it returns a graph with
vertex count `n`; in particular it fails for `0`, `-1` and `MAX_VERTICES + 1`. -/
theorem C9_graph_create_range (n : Int) :
    (graph_create n = none ↔ (n ≤ 0 ∨ n > MAX_VERTICES)) ∧
    ((1 ≤ n ∧ n ≤ 1000) → ∃ g, graph_create n = some g ∧ g.vertices = n) ∧
    MAX_VERTICES = 1000 ∧
    graph_create 0 = none ∧ graph_create (-1) = none ∧
    graph_create (MAX_VERTICES + 1) = none := by
  refine ⟨graph_create_none_iff n, ?_, rfl, ?_, ?_, ?_⟩
  · rintro ⟨h1, h2⟩
    obtain ⟨m, rfl⟩ := Int.eq_ofNat_of_zero_le (show 0 ≤ n by omega)
    obtain ⟨g, hg, hw, _⟩ := graph_create_spec m (by omega) (by simpa [MAX_VERTICES] using h2)
    exact ⟨g, hg, hw.1⟩
  · exact (graph_create_none_iff 0).mpr (Or.inl (le_refl 0))
  · exact (graph_create_none_iff (-1)).mpr (Or.inl (by decide))
  · exact (graph_create_none_iff (MAX_VERTICES + 1)).mpr (Or.inr (by decide))

/-- Claim C10: every graph returned by `graph_create(n)` is marked initialized, has vertex
count `n`, and for all `i, j` in `[0, n)` has `distance[i][j] = 0` when `i = j`,
`distance[i][j] = INFINITY_VALUE` when `i != j`, and `next[i][j] = -1`. -/
theorem C10_graph_create_contents (n : Int) (g : Graph) (h : graph_create n = some g) :
    g.is_initialized = true ∧ g.vertices = n ∧
    ∀ i j : Nat, (i : Int) < n → (j : Int) < n →
      g.dist i j = (if i = j then 0 else INFINITY_VALUE) ∧ g.nxt i j = -1 := by
  have hn : ¬ (n ≤ 0 ∨ n > MAX_VERTICES) := by
    intro hc
    rw [(graph_create_none_iff n).mpr hc] at h
    exact absurd h (by simp)
  have hpos : 0 < n := by
    by_contra h0
    exact hn (Or.inl (by omega))
  have hle : n ≤ MAX_VERTICES := by
    by_contra h0
    exact hn (Or.inr (not_le.mp h0))
  obtain ⟨m, rfl⟩ := Int.eq_ofNat_of_zero_le (le_of_lt hpos)
  obtain ⟨g1, hg, hw, hin, hd, hx⟩ := graph_create_spec m (by omega) hle
  rw [hg] at h
  cases h
  refine ⟨hin, hw.1, ?_⟩
  intro i j hi hj
  exact ⟨hd i j (by omega) (by omega), hx i j (by omega) (by omega)⟩

/-- Witness for C10: the graph returned by `graph_create(2)`. -/
theorem C10_graph_create_contents_witness :
    graph_create 2 = some
      { vertices := 2, distance := some [[0, INFINITY_VALUE], [INFINITY_VALUE, 0]],
        next := some [[-1, -1], [-1, -1]], is_initialized := true } ∧
    ∀ i j : Nat, (i : Int) < 2 → (j : Int) < 2 →
      (Graph.mk 2 (some [[0, INFINITY_VALUE], [INFINITY_VALUE, 0]])
        (some [[-1, -1], [-1, -1]]) true).dist i j
        = (if i = j then 0 else INFINITY_VALUE) ∧
      (Graph.mk 2 (some [[0, INFINITY_VALUE], [INFINITY_VALUE, 0]])
        (some [[-1, -1], [-1, -1]]) true).nxt i j = -1 :=
  ⟨by decide!, (C10_graph_create_contents 2 _ (by decide!)).2.2⟩

/-! ## Generic loop facts -/

theorem foldl_preserves {σ α : Type} (P : σ → Prop) (f : σ → α → σ)
    (hf : ∀ s x, P s → P (f s x)) (l : List α) (s : σ) (hs : P s) : P (l.foldl f s) := by
  induction l generalizing s with
  | nil => exact hs
  | cons x l ih => exact ih _ (hf s x hs)

theorem find_range_some {p : Nat → Bool} {n i : Nat}
    (h : (List.range n).find? p = some i) : i < n ∧ p i = true ∧ ∀ m < i, p m = false := by
  induction n with
  | zero => simp at h
  | succ n ih =>
    rw [List.range_succ, List.find?_append] at h
    cases hf : (List.range n).find? p with
    | some x =>
      rw [hf] at h
      simp only [Option.or_some] at h
      cases h
      obtain ⟨h1, h2, h3⟩ := ih hf
      exact ⟨by omega, h2, h3⟩
    | none =>
      rw [hf] at h
      simp only [Option.none_or, List.find?_cons, List.find?_nil] at h
      have hall : ∀ m < n, p m = false := by
        intro m hm
        have := List.find?_eq_none.mp hf m (List.mem_range.mpr hm)
        simpa using this
      by_cases hpn : p n = true
      · simp only [hpn] at h
        cases h
        exact ⟨by omega, hpn, hall⟩
      · simp [hpn] at h

theorem find_range_none {p : Nat → Bool} {n : Nat} :
    (List.range n).find? p = none ↔ ∀ i < n, p i = false := by
  rw [List.find?_eq_none]
  constructor
  · intro h i hi
    simpa using h i (List.mem_range.mpr hi)
  · intro h i hi
    simp [h i (List.mem_range.mp hi)]

/-! ## Frame facts of the relaxation loops -/

/-- The relaxation fires for `(i, j)` through `k`. -/
theorem relax_def (g : Graph) (k i j : Nat) :
    relax g k i j =
      if g.dist i k < INFINITY_VALUE ∧ g.dist k j < INFINITY_VALUE ∧
          g.dist i k + g.dist k j < g.dist i j then
        (g.setDist i j (g.dist i k + g.dist k j)).setNext i j (g.nxt i k)
      else g := by
  unfold relax
  by_cases h1 : g.dist i k < INFINITY_VALUE ∧ g.dist k j < INFINITY_VALUE
  · by_cases h2 : g.dist i k + g.dist k j < g.dist i j
    · simp [h1, h2]
    · simp [h1, h2]
  · have : ¬ (g.dist i k < INFINITY_VALUE ∧ g.dist k j < INFINITY_VALUE ∧
        g.dist i k + g.dist k j < g.dist i j) := fun h => h1 ⟨h.1, h.2.1⟩
    rw [if_neg h1, if_neg this]

theorem relax_frame (g : Graph) (k i j : Nat) :
    (relax g k i j).vertices = g.vertices ∧
    (relax g k i j).is_initialized = g.is_initialized := by
  rw [relax_def]
  split_ifs <;> simp

theorem relax_WF {n : Nat} {g : Graph} (h : g.WF n) (k i j : Nat) : (relax g k i j).WF n := by
  rw [relax_def]
  split_ifs
  · exact (h.setDist _ _ _).setNext _ _ _
  · exact h

theorem fw_row_preserves (P : Graph → Prop) (hP : ∀ g k i j, P g → P (relax g k i j))
    (n k i : Nat) (s : Graph × Int) (hs : P s.1) : P (fw_row n k i s).1 :=
  foldl_preserves (fun s : Graph × Int => P s.1) _ (fun s j h => hP s.1 k i j h) _ s hs

theorem fw_pass_preserves (P : Graph → Prop) (hP : ∀ g k i j, P g → P (relax g k i j))
    (n k : Nat) (s : Graph × Int) (hs : P s.1) : P (fw_pass n k s).1 :=
  foldl_preserves (fun s : Graph × Int => P s.1) _
    (fun s i h => fw_row_preserves P hP n k i s h) _ s hs

theorem fw_main_preserves (P : Graph → Prop) (hP : ∀ g k i j, P g → P (relax g k i j))
    (n : Nat) (s : Graph × Int) (hs : P s.1) : P (fw_main n s).1 :=
  foldl_preserves (fun s : Graph × Int => P s.1) _
    (fun s k h => fw_pass_preserves P hP n k s h) _ s hs

theorem fw_main_frame (n : Nat) (g : Graph) (c : Int) :
    (fw_main n (g, c)).1.vertices = g.vertices ∧
    (fw_main n (g, c)).1.is_initialized = g.is_initialized :=
  fw_main_preserves
    (fun x => x.vertices = g.vertices ∧ x.is_initialized = g.is_initialized)
    (fun x k i j h => by
      obtain ⟨h1, h2⟩ := relax_frame x k i j
      exact ⟨h1.trans h.1, h2.trans h.2⟩) n (g, c) ⟨rfl, rfl⟩

/-- The successful branch of `floyd_warshall_execute`. -/
theorem execute_of_valid {g : Graph} (hi : g.is_initialized = true)
    (hv : graph_validate (some g) = SUCCESS) :
    floyd_warshall_execute (some g) =
      (fill_result (fw_main g.vertices.toNat (g, 0)).1 g.vertices.toNat
        (fw_main g.vertices.toNat (g, 0)).2, some (fw_main g.vertices.toNat (g, 0)).1) := by
  simp [floyd_warshall_execute, hi, hv]

theorem fill_result_success (g : Graph) (n : Nat) (c : Int) :
    (fill_result g n c).success = true := by
  unfold fill_result
  split <;> rfl

theorem execute_success_iff (graph : Option Graph) :
    (floyd_warshall_execute graph).1.success = true ↔
      ∃ g, graph = some g ∧ g.is_initialized = true ∧ graph_validate graph = SUCCESS := by
  cases graph with
  | none => simp [floyd_warshall_execute, result_init]
  | some g =>
    by_cases hi : g.is_initialized = true
    · by_cases hv : graph_validate (some g) = SUCCESS
      · rw [execute_of_valid hi hv]
        simp [fill_result_success, hi, hv]
      · simp [floyd_warshall_execute, hi, hv, result_init]
    · simp [floyd_warshall_execute, hi, result_init]

/-- Claim C5: `floyd_warshall_execute` reports `success = true` exactly when the graph is
(non-null,) initialized and passes `graph_validate`; otherwise it returns the report
`{success = false, iterations = 0, has_negative_cycle = false, negative_cycle_vertex = -1}`
and leaves the graph, hence both matrices, exactly as it was. -/
theorem C5_execute_precondition (graph : Option Graph) :
    ((floyd_warshall_execute graph).1.success = true ↔
      ∃ g, graph = some g ∧ g.is_initialized = true ∧ graph_validate graph = SUCCESS) ∧
    ((floyd_warshall_execute graph).1.success ≠ true →
      (floyd_warshall_execute graph).1 =
        { success := false, iterations := 0, has_negative_cycle := false,
          negative_cycle_vertex := -1 } ∧
      (floyd_warshall_execute graph).2 = graph) := by
  refine ⟨execute_success_iff graph, ?_⟩
  intro hs
  cases graph with
  | none => simp [floyd_warshall_execute, result_init]
  | some g =>
    by_cases hi : g.is_initialized = true
    · by_cases hv : graph_validate (some g) = SUCCESS
      · exact absurd ((execute_success_iff (some g)).mpr ⟨g, rfl, hi, hv⟩) hs
      · simp [floyd_warshall_execute, hi, hv, result_init]
    · simp [floyd_warshall_execute, hi, result_init]

theorem fill_result_scan (g : Graph) (n : Nat) (c : Int) :
    ((fill_result g n c).has_negative_cycle = true ↔ ∃ i, i < n ∧ g.dist i i < -EPSILON) ∧
    ((fill_result g n c).has_negative_cycle = true →
      ∃ i : Nat, (fill_result g n c).negative_cycle_vertex = (i : Int) ∧ i < n ∧
        g.dist i i < -EPSILON ∧ ∀ m < i, ¬ g.dist m m < -EPSILON) ∧
    ((fill_result g n c).has_negative_cycle = false →
      (fill_result g n c).negative_cycle_vertex = -1) := by
  unfold fill_result negative_cycle_scan
  cases hf : (List.range n).find? (fun i => decide (g.dist i i < -EPSILON)) with
  | some i =>
    obtain ⟨h1, h2, h3⟩ := find_range_some hf
    have h2p : g.dist i i < -EPSILON := by simpa using h2
    refine ⟨⟨fun _ => ⟨i, h1, h2p⟩, fun _ => rfl⟩, fun _ => ⟨i, rfl, h1, h2p, ?_⟩, ?_⟩
    · intro m hm
      simpa using h3 m hm
    · intro h
      simp at h
  | none =>
    have hall := find_range_none.mp hf
    refine ⟨⟨fun h => by simp at h, ?_⟩, fun h => by simp at h, fun _ => rfl⟩
    rintro ⟨i, hi, hlt⟩
    have := hall i hi
    simp only [decide_eq_false_iff_not] at this
    exact absurd hlt this

/-- Claim C8: after a successful `floyd_warshall_execute` the negative-cycle fields are
a scan of the post-run diagonal: `has_negative_cycle` holds iff some
`distance[i][i] < -EPSILON`, it equals `floyd_warshall_detect_negative_cycle` of the
post-run graph, `negative_cycle_vertex` is the lowest such index when there is one, and
it is `-1` when `has_negative_cycle` is false. -/
theorem C8_negative_cycle_fields (graph : Option Graph)
    (hs : (floyd_warshall_execute graph).1.success = true) :
    ∃ post, (floyd_warshall_execute graph).2 = some post ∧
      ((floyd_warshall_execute graph).1.has_negative_cycle = true ↔
        ∃ i : Nat, (i : Int) < post.vertices ∧ post.dist i i < -EPSILON) ∧
      (floyd_warshall_execute graph).1.has_negative_cycle =
        floyd_warshall_detect_negative_cycle (some post) ∧
      ((floyd_warshall_execute graph).1.has_negative_cycle = true →
        ∃ i : Nat, (floyd_warshall_execute graph).1.negative_cycle_vertex = (i : Int) ∧
          (i : Int) < post.vertices ∧ post.dist i i < -EPSILON ∧
          ∀ m < i, ¬ post.dist m m < -EPSILON) ∧
      ((floyd_warshall_execute graph).1.has_negative_cycle = false →
        (floyd_warshall_execute graph).1.negative_cycle_vertex = -1) := by
  obtain ⟨g, rfl, hi, hv⟩ := (execute_success_iff graph).mp hs
  rw [execute_of_valid hi hv]
  obtain ⟨hvert, hinit⟩ := fw_main_frame g.vertices.toNat g 0
  obtain ⟨h1, h2, h3⟩ := fill_result_scan (fw_main g.vertices.toNat (g, 0)).1
    g.vertices.toNat (fw_main g.vertices.toNat (g, 0)).2
  have hlt : ∀ i : Nat, (i : Int) < g.vertices ↔ i < g.vertices.toNat := by
    intro i; omega
  refine ⟨_, rfl, ?_, ?_, ?_, h3⟩
  · simp only [hvert, hlt]
    exact h1
  · simp only [floyd_warshall_detect_negative_cycle, hinit, hi, hvert]
    rw [Bool.eq_iff_iff, h1]
    simp
  · intro h
    obtain ⟨i, e1, e2, e3, e4⟩ := h2 h
    exact ⟨i, e1, by rw [hvert]; exact (hlt i).mpr e2, e3, e4⟩

/-- Witness for C8: the negative-cycle graph of the test suite. -/
theorem C8_negative_cycle_fields_witness :
    (floyd_warshall_execute
      (build_graph 3 [(0, 1, 1), (1, 2, -3), (2, 0, 1)])).1.success = true ∧
    ∃ post, (floyd_warshall_execute
        (build_graph 3 [(0, 1, 1), (1, 2, -3), (2, 0, 1)])).2 = some post ∧
      ((floyd_warshall_execute
          (build_graph 3 [(0, 1, 1), (1, 2, -3), (2, 0, 1)])).1.has_negative_cycle = true ↔
        ∃ i : Nat, (i : Int) < post.vertices ∧ post.dist i i < -EPSILON) :=
  ⟨by decide!, by
    obtain ⟨post, h1, h2, _⟩ := C8_negative_cycle_fields
      (build_graph 3 [(0, 1, 1), (1, 2, -3), (2, 0, 1)]) (by decide!)
    exact ⟨post, h1, h2⟩⟩

/-! ## graph_add_edge and the arcs a built graph stores -/

theorem relax_eq_fires (g : Graph) (k i j : Nat) :
    relax g k i j =
      if fires g k i j then (g.setDist i j (g.dist i k + g.dist k j)).setNext i j (g.nxt i k)
      else g := by
  rw [relax_def]
  rfl

theorem relax_dist {n : Nat} {g : Graph} (hw : g.WF n) (k : Nat) {i j : Nat} (hi : i < n)
    (hj : j < n) (a b : Nat) :
    (relax g k i j).dist a b =
      if fires g k i j ∧ a = i ∧ b = j then g.dist i k + g.dist k j else g.dist a b := by
  rw [relax_eq_fires]
  by_cases hf : fires g k i j
  · rw [if_pos hf, dist_setNext, dist_setDist hw hi hj]
    simp [hf]
  · simp [hf]

theorem relax_nxt {n : Nat} {g : Graph} (hw : g.WF n) (k : Nat) {i j : Nat} (hi : i < n)
    (hj : j < n) (a b : Nat) :
    (relax g k i j).nxt a b =
      if fires g k i j ∧ a = i ∧ b = j then g.nxt i k else g.nxt a b := by
  rw [relax_eq_fires]
  by_cases hf : fires g k i j
  · rw [if_pos hf, nxt_setNext (hw.setDist _ _ _) hi hj, nxt_setDist]
    simp [hf]
  · simp [hf]

theorem fw_row_eq (n k i : Nat) (g : Graph) (c : Int) :
    fw_row n k i (g, c) = (relax_row n k i g, c + n) := by
  unfold fw_row relax_row
  induction n with
  | zero => simp
  | succ m ih =>
    rw [foldl_range_succ, foldl_range_succ, ih]
    simp only [Prod.mk.injEq, true_and]
    push_cast
    ring

theorem fw_pass_eq (n k : Nat) (g : Graph) (c : Int) :
    fw_pass n k (g, c) = (relax_pass n k g, c + n * n) := by
  have key : ∀ m : Nat, (List.range m).foldl (fun s i => fw_row n k i s) (g, c) =
      ((List.range m).foldl (fun g i => relax_row n k i g) g, c + m * n) := by
    intro m
    induction m with
    | zero => simp
    | succ m ih =>
      rw [foldl_range_succ, foldl_range_succ, ih, fw_row_eq]
      simp only [Prod.mk.injEq, true_and]
      push_cast
      ring
  exact key n

theorem fw_upto_eq (n m : Nat) (g : Graph) (c : Int) :
    (List.range m).foldl (fun s k => fw_pass n k s) (g, c) =
      (relax_upto n m g, c + m * (n * n)) := by
  unfold relax_upto
  induction m with
  | zero => simp
  | succ m ih =>
    rw [foldl_range_succ, foldl_range_succ, ih, fw_pass_eq]
    simp only [Prod.mk.injEq, true_and]
    push_cast
    ring

theorem fw_main_eq (n : Nat) (g : Graph) (c : Int) :
    fw_main n (g, c) = (relax_upto n n g, c + n * (n * n)) :=
  fw_upto_eq n n g c

theorem relax_upto_succ (n m : Nat) (g : Graph) :
    relax_upto n (m + 1) g = relax_pass n m (relax_upto n m g) := by
  unfold relax_upto
  rw [foldl_range_succ]

theorem relax_upto_zero (n : Nat) (g : Graph) : relax_upto n 0 g = g := rfl

/-! ## One pass: monotonicity and the triangle bound (in place) -/

theorem foldl_range_preserves {σ : Type} (P : σ → Prop) (f : σ → Nat → σ) (n : Nat)
    (hf : ∀ s x, x < n → P s → P (f s x)) (s : σ) (hs : P s) :
    P ((List.range n).foldl f s) := by
  have key : ∀ m, m ≤ n → P ((List.range m).foldl f s) := by
    intro m
    induction m with
    | zero => intro _; exact hs
    | succ m ih =>
      intro hm
      rw [foldl_range_succ]
      exact hf _ m (by omega) (ih (by omega))
  exact key n (le_refl n)

/-- A property kept by every in-range relaxation step is kept by the first `m` passes. -/
theorem relax_upto_preserves (P : Graph → Prop) (n : Nat)
    (hP : ∀ g k i j, k < n → i < n → j < n → P g → P (relax g k i j))
    (m : Nat) (hm : m ≤ n) (g : Graph) (hg : P g) : P (relax_upto n m g) := by
  have hrow : ∀ g k i, k < n → i < n → P g → P (relax_row n k i g) := by
    intro g k i hk hi h
    exact foldl_range_preserves P _ n (fun s j hj hs => hP s k i j hk hi hj hs) g h
  have hpass : ∀ g k, k < n → P g → P (relax_pass n k g) := by
    intro g k hk h
    exact foldl_range_preserves P _ n (fun s i hi hs => hrow s k i hk hi hs) g h
  induction m with
  | zero => exact hg
  | succ m ih =>
    rw [relax_upto_succ]
    exact hpass _ m (by omega) (ih (by omega))

/-! ## Every finite entry is the weight of a walk -/

/-- Claim C4 fails on the code: on the valid graph `0 -> 1` (5), `1 -> 2` (3) the standard
run ends with `distance[0][2] = 8` after 27 iterations, while the optimized run on a copy
stops after the first pass (9 iterations, nothing changed for `k = 0`) and leaves
`distance[0][2] = INFINITY_VALUE`; on the valid graph `1 -> 2` (1), `2 -> 1` (-3) the
standard run reports a negative cycle and the optimized run on a copy reports none. -/
theorem C4_optimized_diverges :
    (floyd_warshall_execute (build_graph 3 chain_edges)).1 =
      { success := true, iterations := 27, has_negative_cycle := false,
        negative_cycle_vertex := -1 } ∧
    (floyd_warshall_execute (build_graph 3 chain_edges)).2.map
      (fun post => post.dist 0 2) = some 8 ∧
    (floyd_warshall_execute_optimized (graph_copy (build_graph 3 chain_edges))).1 =
      { success := true, iterations := 9, has_negative_cycle := false,
        negative_cycle_vertex := -1 } ∧
    (floyd_warshall_execute_optimized (graph_copy (build_graph 3 chain_edges))).2.map
      (fun post => post.dist 0 2) = some INFINITY_VALUE ∧
    graph_copy (build_graph 3 chain_edges) = build_graph 3 chain_edges ∧
    (floyd_warshall_execute (build_graph 3 late_cycle_edges)).1.has_negative_cycle = true ∧
    (floyd_warshall_execute_optimized
      (graph_copy (build_graph 3 late_cycle_edges))).1.has_negative_cycle = false := by
  refine ⟨?_, ?_, ?_, ?_, ?_, ?_, ?_⟩ <;> decide!

/-! ## Claim C6 -/

/-- The successful branch of `graph_add_edge`. -/
theorem add_edge_in_range {g : Graph} (hin : g.is_initialized = true) (from_v to_v : Int)
    (h1 : 0 ≤ from_v) (h2 : from_v < g.vertices) (h3 : 0 ≤ to_v) (h4 : to_v < g.vertices)
    (w : ℚ) :
    graph_add_edge (some g) from_v to_v w =
      (SUCCESS, some ((g.setDist from_v.toNat to_v.toNat w).setNext
        from_v.toNat to_v.toNat to_v)) := by
  have hr : ¬ (from_v < 0 ∨ from_v ≥ g.vertices ∨ to_v < 0 ∨ to_v ≥ g.vertices) := by omega
  simp only [graph_add_edge, hin, hr]
  rfl

/-- What the graph left by a successful `graph_add_edge` holds. -/
theorem add_edge_effect {n : Nat} {g : Graph} (hw : g.WF n) {f t : Nat} (hf : f < n)
    (ht : t < n) (w : ℚ) (v : Int) :
    ((g.setDist f t w).setNext f t v).WF n ∧
    (∀ a b, ((g.setDist f t w).setNext f t v).dist a b =
      if a = f ∧ b = t then w else g.dist a b) ∧
    (∀ a b, ((g.setDist f t w).setNext f t v).nxt a b =
      if a = f ∧ b = t then v else g.nxt a b) := by
  refine ⟨(hw.setDist _ _ _).setNext _ _ _, ?_, ?_⟩
  · intro a b
    rw [dist_setNext, dist_setDist hw hf ht]
  · intro a b
    rw [nxt_setNext (hw.setDist _ _ _) hf ht, nxt_setDist]

/-- Claim C11: for every initialized graph (both matrices allocated for its vertex count)
and all `from, to` in `[0, vertexCount)`, `graph_add_edge(from, to, w)` returns `SUCCESS`
and leaves the original graph with exactly `distance[from][to]` replaced by `w` and
`next[from][to]` replaced by `to`; every other entry, the vertex count and the
initialized flag are unchanged.  Afterwards `graph_get_edge(from, to)` returns `w`, and
after a further insertion on the same pair it returns the later weight. -/
theorem C11_add_edge_frame (n : Nat) (g : Graph) (hw : g.WF n)
    (hin : g.is_initialized = true) (f t : Nat) (hf : f < n) (ht : t < n) (w w2 : ℚ) :
    ∃ g1, graph_add_edge (some g) (f : Int) (t : Int) w = (SUCCESS, some g1) ∧
      (∀ a b, g1.dist a b = if a = f ∧ b = t then w else g.dist a b) ∧
      (∀ a b, g1.nxt a b = if a = f ∧ b = t then (t : Int) else g.nxt a b) ∧
      g1.vertices = g.vertices ∧ g1.is_initialized = g.is_initialized ∧
      graph_get_edge (some g1) (f : Int) (t : Int) = w ∧
      ∃ g2, graph_add_edge (some g1) (f : Int) (t : Int) w2 = (SUCCESS, some g2) ∧
        graph_get_edge (some g2) (f : Int) (t : Int) = w2 := by
  have hv : g.vertices = (n : Int) := hw.1
  have key : ∀ (x : Graph), x.WF n → x.is_initialized = true → ∀ u : ℚ,
      ∃ x1, graph_add_edge (some x) (f : Int) (t : Int) u = (SUCCESS, some x1) ∧
        x1.WF n ∧
        (∀ a b, x1.dist a b = if a = f ∧ b = t then u else x.dist a b) ∧
        (∀ a b, x1.nxt a b = if a = f ∧ b = t then (t : Int) else x.nxt a b) ∧
        x1.vertices = x.vertices ∧ x1.is_initialized = x.is_initialized ∧
        graph_get_edge (some x1) (f : Int) (t : Int) = u := by
    intro x hx hxi u
    have hxv : x.vertices = (n : Int) := hx.1
    obtain ⟨e1, e2, e3⟩ := add_edge_effect hx hf ht u (t : Int)
    refine ⟨_, ?_, e1, e2, e3, rfl, rfl, ?_⟩
    · have := add_edge_in_range hxi (f : Int) (t : Int)
        (by omega) (by omega) (by omega) (by omega) u
      simpa using this
    · have hr : ¬ ((f : Int) < 0 ∨ (f : Int) ≥ x.vertices ∨ (t : Int) < 0 ∨
          (t : Int) ≥ x.vertices) := by omega
      simp only [graph_get_edge, init_setNext, init_setDist, hxi, vertices_setNext,
        vertices_setDist, hr, Bool.not_true, Bool.false_eq_true, false_or, if_false,
        Int.toNat_ofNat, e2]
      simp
  obtain ⟨g1, a1, a2, a3, a4, a5, a6, a7⟩ := key g hw hin w
  obtain ⟨g2, b1, _, _, _, _, _, b7⟩ := key g1 a2 (a6.trans hin) w2
  exact ⟨g1, a1, a3, a4, a5, a6, a7, g2, b1, b7⟩

theorem fresh2_create : graph_create 2 = some fresh2_graph := by decide!

theorem fresh2_WF : fresh2_graph.WF 2 :=
  ⟨rfl, _, _, rfl, rfl, ⟨rfl, by decide⟩, ⟨rfl, by decide⟩⟩

/-- Witness for C11: inserting `0 -> 1` with weight `5`, then `7`, into the graph that
`graph_create(2)` returns. -/
theorem C11_add_edge_frame_witness :
    fresh2_graph.WF 2 ∧ fresh2_graph.is_initialized = true ∧
    ∃ g1, graph_add_edge (some fresh2_graph) 0 1 5 = (SUCCESS, some g1) ∧
      graph_get_edge (some g1) 0 1 = 5 ∧
      ∃ g2, graph_add_edge (some g1) 0 1 7 = (SUCCESS, some g2) ∧
        graph_get_edge (some g2) 0 1 = 7 := by
  refine ⟨fresh2_WF, rfl, ?_⟩
  obtain ⟨g1, h1, _, _, _, _, h6, g2, h7, h8⟩ :=
    C11_add_edge_frame 2 fresh2_graph fresh2_WF rfl 0 1 (by decide) (by decide) 5 7
  exact ⟨g1, h1, h6, g2, h7, h8⟩

/-- Claim C12: for every initialized graph, if `from` or `to` lies outside
`[0, vertexCount)` then `graph_add_edge(from, to, w)` returns `ERROR_INVALID_INPUT` and
leaves the graph, hence both matrices, unchanged. -/
theorem C12_add_edge_out_of_range (g : Graph) (hin : g.is_initialized = true)
    (from_v to_v : Int) (w : ℚ)
    (hr : from_v < 0 ∨ from_v ≥ g.vertices ∨ to_v < 0 ∨ to_v ≥ g.vertices) :
    graph_add_edge (some g) from_v to_v w = (ERROR_INVALID_INPUT, some g) := by
  simp [graph_add_edge, hin, hr]

/-- Witness for C12: the two out-of-range requests of the test suite, on the graph that
`graph_create(2)` returns. -/
theorem C12_add_edge_out_of_range_witness :
    fresh2_graph.is_initialized = true ∧
    graph_add_edge (some fresh2_graph) (-1) 0 1 = (ERROR_INVALID_INPUT, some fresh2_graph) ∧
    graph_add_edge (some fresh2_graph) 0 5 1 = (ERROR_INVALID_INPUT, some fresh2_graph) :=
  ⟨rfl, C12_add_edge_out_of_range fresh2_graph rfl (-1) 0 1 (Or.inl (by decide)),
    C12_add_edge_out_of_range fresh2_graph rfl 0 5 1 (Or.inr (Or.inr (Or.inr (by decide))))⟩

/-! ## Claim C13: graph_validate -/

theorem fabs_eq_abs (x : ℚ) : fabs x = |x| := by
  unfold fabs
  split_ifs with h
  · exact (abs_of_neg h).symm
  · exact (abs_of_nonneg (not_lt.mp h)).symm

theorem validate_some_iff (g : Graph) :
    graph_validate (some g) = SUCCESS ↔
      g.is_initialized = true ∧ 1 ≤ g.vertices ∧ g.vertices ≤ 1000 ∧
      g.distance.isSome = true ∧ g.next.isSome = true ∧
      ∀ i : Nat, (i : Int) < g.vertices → |g.dist i i| ≤ EPSILON := by
  have hany : ((List.range g.vertices.toNat).any
      (fun i => decide (fabs (g.dist i i) > EPSILON)) = true) ↔
      ¬ ∀ i : Nat, (i : Int) < g.vertices → |g.dist i i| ≤ EPSILON := by
    rw [List.any_eq_true]
    constructor
    · rintro ⟨i, hi, hgt⟩ hall
      have := hall i (by have := List.mem_range.mp hi; omega)
      rw [fabs_eq_abs] at hgt
      simp only [gt_iff_lt, decide_eq_true_eq] at hgt
      exact absurd this (not_le.mpr hgt)
    · intro hn
      push_neg at hn
      obtain ⟨i, hi, hgt⟩ := hn
      refine ⟨i, List.mem_range.mpr (by omega), ?_⟩
      rw [fabs_eq_abs]
      simpa using hgt
  unfold graph_validate
  by_cases h1 : g.is_initialized = true
  · by_cases h2 : g.vertices ≤ 0 ∨ g.vertices > MAX_VERTICES
    · have : ¬ (1 ≤ g.vertices ∧ g.vertices ≤ 1000) := by
        simp only [MAX_VERTICES] at h2
        omega
      simp only [h1, h2, Bool.not_true, Bool.false_eq_true, if_false, if_true]
      constructor
      · intro h
        exact absurd h (by decide)
      · intro h
        exact absurd ⟨h.2.1, h.2.2.1⟩ this
    · have hr : 1 ≤ g.vertices ∧ g.vertices ≤ 1000 := by
        simp only [MAX_VERTICES] at h2
        omega
      by_cases h3 : g.distance.isNone = true ∨ g.next.isNone = true
      · simp only [h1, h2, h3, Bool.not_true, Bool.false_eq_true, if_false, if_true]
        constructor
        · intro h
          exact absurd h (by decide)
        · rintro ⟨_, _, _, h4, h5, _⟩
          rcases h3 with h3 | h3
          · rw [Option.isNone_iff_eq_none] at h3
            rw [h3] at h4
            exact absurd h4 (by simp)
          · rw [Option.isNone_iff_eq_none] at h3
            rw [h3] at h5
            exact absurd h5 (by simp)
      · have h4 : g.distance.isSome = true := by
          cases hd : g.distance with
          | none => exact absurd (Or.inl (by rw [hd]; rfl)) h3
          | some _ => rfl
        have h5 : g.next.isSome = true := by
          cases hd : g.next with
          | none => exact absurd (Or.inr (by rw [hd]; rfl)) h3
          | some _ => rfl
        by_cases h6 : ∀ i : Nat, (i : Int) < g.vertices → |g.dist i i| ≤ EPSILON
        · have : ¬ ((List.range g.vertices.toNat).any
              (fun i => decide (fabs (g.dist i i) > EPSILON)) = true) :=
            fun hc => hany.mp hc h6
          simp only [h1, h2, h3, this, Bool.not_true, Bool.false_eq_true, if_false]
          exact ⟨fun _ => ⟨trivial, hr.1, hr.2, h4, h5, h6⟩, fun _ => trivial⟩
        · have := hany.mpr h6
          simp only [h1, h2, h3, this, Bool.not_true, Bool.false_eq_true, if_false, if_true]
          constructor
          · intro h
            exact absurd h (by decide)
          · intro h
            exact absurd h.2.2.2.2.2 h6
  · simp only [h1, Bool.not_eq_true] at *
    simp only [h1, Bool.not_false, if_true]
    constructor
    · intro h
      exact absurd h (by decide)
    · intro h
      exact absurd h.1 (by simp)

/-- Claim C15: `graph_get_edge` and `floyd_warshall_get_distance` return the same value on
every input: the stored entry `distance[from][to]` when the graph is (non-null,)
initialized and both indices are in `[0, vertexCount)`, and `INFINITY_VALUE` (1e9)
otherwise. -/
theorem C15_get_edge_get_distance (graph : Option Graph) (from_v to_v : Int) :
    graph_get_edge graph from_v to_v = floyd_warshall_get_distance graph from_v to_v ∧
    (∀ g, graph = some g → g.is_initialized = true → 0 ≤ from_v → from_v < g.vertices →
      0 ≤ to_v → to_v < g.vertices →
      graph_get_edge graph from_v to_v = g.dist from_v.toNat to_v.toNat) ∧
    ((¬ ∃ g, graph = some g ∧ g.is_initialized = true ∧ 0 ≤ from_v ∧ from_v < g.vertices ∧
        0 ≤ to_v ∧ to_v < g.vertices) →
      graph_get_edge graph from_v to_v = INFINITY_VALUE) ∧
    INFINITY_VALUE = 1000000000 := by
  refine ⟨rfl, ?_, ?_, rfl⟩
  · rintro g rfl hin h1 h2 h3 h4
    have hr : ¬ (from_v < 0 ∨ from_v ≥ g.vertices ∨ to_v < 0 ∨ to_v ≥ g.vertices) := by omega
    simp [graph_get_edge, hin, hr]
  · intro hn
    cases graph with
    | none => rfl
    | some g =>
      by_cases hin : g.is_initialized = true
      · have hr : from_v < 0 ∨ from_v ≥ g.vertices ∨ to_v < 0 ∨ to_v ≥ g.vertices := by
          by_contra hc
          exact hn ⟨g, rfl, hin, by omega, by omega, by omega, by omega⟩
        simp [graph_get_edge, hin, hr]
      · simp [graph_get_edge, hin]

/-- Claim C16: for every initialized graph and all `from, to` in `[0, vertexCount)`,
`graph_has_edge(from, to)` holds exactly when `distance[from][to] < INFINITY_VALUE`; for a
null or uninitialized graph or out-of-range indices it is false. -/
theorem C16_has_edge (graph : Option Graph) (from_v to_v : Int) :
    (∀ g, graph = some g → g.is_initialized = true → 0 ≤ from_v → from_v < g.vertices →
      0 ≤ to_v → to_v < g.vertices →
      (graph_has_edge graph from_v to_v = true ↔
        g.dist from_v.toNat to_v.toNat < INFINITY_VALUE)) ∧
    ((¬ ∃ g, graph = some g ∧ g.is_initialized = true ∧ 0 ≤ from_v ∧ from_v < g.vertices ∧
        0 ≤ to_v ∧ to_v < g.vertices) →
      graph_has_edge graph from_v to_v = false) ∧
    INFINITY_VALUE = 1000000000 := by
  refine ⟨?_, ?_, rfl⟩
  · rintro g rfl hin h1 h2 h3 h4
    have hr : ¬ (from_v < 0 ∨ from_v ≥ g.vertices ∨ to_v < 0 ∨ to_v ≥ g.vertices) := by omega
    simp [graph_has_edge, hin, hr]
  · intro hn
    cases graph with
    | none => rfl
    | some g =>
      by_cases hin : g.is_initialized = true
      · have hr : from_v < 0 ∨ from_v ≥ g.vertices ∨ to_v < 0 ∨ to_v ≥ g.vertices := by
          by_contra hc
          exact hn ⟨g, rfl, hin, by omega, by omega, by omega, by omega⟩
        simp [graph_has_edge, hin, hr]
      · simp [graph_has_edge, hin]

/-! ## Claim C17: graph_copy -/

theorem copy_cell_spec {n : Nat} (o : Graph) {c : Graph} (h : c.WF n) {i j : Nat} (hi : i < n)
    (hj : j < n) :
    (copy_cell o c i j).WF n ∧ (copy_cell o c i j).is_initialized = c.is_initialized ∧
    (copy_cell o c i j).vertices = c.vertices ∧
    (∀ a b, (copy_cell o c i j).dist a b = if a = i ∧ b = j then o.dist i j else c.dist a b) ∧
    (∀ a b, (copy_cell o c i j).nxt a b = if a = i ∧ b = j then o.nxt i j else c.nxt a b) := by
  refine ⟨(h.setDist i j _).setNext i j _, rfl, rfl, ?_, ?_⟩
  · intro a b
    simp only [copy_cell, dist_setNext]
    exact dist_setDist h hi hj _ a b
  · intro a b
    simp only [copy_cell]
    rw [nxt_setNext (h.setDist i j _) hi hj]
    simp

theorem copy_row_spec {n : Nat} (o : Graph) {c : Graph} (h : c.WF n) {i : Nat} (hi : i < n)
    (m : Nat) (hm : m ≤ n) :
    ((List.range m).foldl (fun c j => copy_cell o c i j) c).WF n ∧
    ((List.range m).foldl (fun c j => copy_cell o c i j) c).is_initialized
      = c.is_initialized ∧
    ((List.range m).foldl (fun c j => copy_cell o c i j) c).vertices = c.vertices ∧
    (∀ a b, ((List.range m).foldl (fun c j => copy_cell o c i j) c).dist a b =
      if a = i ∧ b < m then o.dist a b else c.dist a b) ∧
    (∀ a b, ((List.range m).foldl (fun c j => copy_cell o c i j) c).nxt a b =
      if a = i ∧ b < m then o.nxt a b else c.nxt a b) := by
  induction m with
  | zero => simp [h]
  | succ m ih =>
    obtain ⟨hw, hin, hv, hd, hx⟩ := ih (by omega)
    rw [foldl_range_succ]
    obtain ⟨hw2, hin2, hv2, hd2, hx2⟩ := copy_cell_spec o hw hi (show m < n by omega)
    refine ⟨hw2, by rw [hin2, hin], by rw [hv2, hv], ?_, ?_⟩
    · intro a b
      rw [hd2, hd]
      by_cases ha : a = i
      · subst ha
        by_cases hb : b = m
        · subst hb; simp
        · have : (b < m + 1) ↔ b < m := by omega
          simp [hb, this]
      · simp [ha]
    · intro a b
      rw [hx2, hx]
      by_cases ha : a = i
      · subst ha
        by_cases hb : b = m
        · subst hb; simp
        · have : (b < m + 1) ↔ b < m := by omega
          simp [hb, this]
      · simp [ha]

theorem copy_loops_spec {n : Nat} (o : Graph) {c : Graph} (h : c.WF n) (m : Nat)
    (hm : m ≤ n) :
    ((List.range m).foldl
      (fun c i => (List.range n).foldl (fun c j => copy_cell o c i j) c) c).WF n ∧
    ((List.range m).foldl
      (fun c i => (List.range n).foldl (fun c j => copy_cell o c i j) c) c).is_initialized
        = c.is_initialized ∧
    ((List.range m).foldl
      (fun c i => (List.range n).foldl (fun c j => copy_cell o c i j) c) c).vertices
        = c.vertices ∧
    (∀ a b, ((List.range m).foldl
      (fun c i => (List.range n).foldl (fun c j => copy_cell o c i j) c) c).dist a b =
      if a < m ∧ b < n then o.dist a b else c.dist a b) ∧
    (∀ a b, ((List.range m).foldl
      (fun c i => (List.range n).foldl (fun c j => copy_cell o c i j) c) c).nxt a b =
      if a < m ∧ b < n then o.nxt a b else c.nxt a b) := by
  induction m with
  | zero => simp [h]
  | succ m ih =>
    obtain ⟨hw, hin, hv, hd, hx⟩ := ih (by omega)
    rw [foldl_range_succ]
    obtain ⟨hw2, hin2, hv2, hd2, hx2⟩ := copy_row_spec o hw (show m < n by omega) n (le_refl n)
    refine ⟨hw2, by rw [hin2, hin], by rw [hv2, hv], ?_, ?_⟩
    · intro a b
      rw [hd2, hd]
      by_cases ha : a = m
      · subst ha; simp
      · have : (a < m + 1) ↔ a < m := by omega
        simp [ha, this]
    · intro a b
      rw [hx2, hx]
      by_cases ha : a = m
      · subst ha; simp
      · have : (a < m + 1) ↔ a < m := by omega
        simp [ha, this]

/-- What `graph_copy` returns for an initialized graph with a vertex count in range. -/
theorem graph_copy_spec (n : Nat) (h1 : 0 < n) (h2 : (n : Int) ≤ MAX_VERTICES) (g : Graph)
    (hv : g.vertices = (n : Int)) (hin : g.is_initialized = true) :
    ∃ c, graph_copy (some g) = some c ∧ c.WF n ∧ c.is_initialized = true ∧
      (∀ a b, a < n → b < n → c.dist a b = g.dist a b) ∧
      (∀ a b, a < n → b < n → c.nxt a b = g.nxt a b) := by
  obtain ⟨c0, hc0, hw0, hin0, _, _⟩ := graph_create_spec n h1 h2
  obtain ⟨hw, hi, _, hd, hx⟩ := copy_loops_spec g hw0 n (le_refl n)
  refine ⟨_, ?_, hw, hi.trans hin0, ?_, ?_⟩
  · simp only [graph_copy, hin, hv, hc0, Int.toNat_ofNat]
    rfl
  · intro a b ha hb
    have := hd a b
    simp only [ha, hb, and_self, if_true] at this
    exact this
  · intro a b ha hb
    have := hx a b
    simp only [ha, hb, and_self, if_true] at this
    exact this

/-- Claim C17: for every initialized graph `g` with a vertex count in `[1, 1000]`,
`graph_copy(g)` returns an initialized graph with the same vertex count and both matrices
allocated, whose distance and successor entries equal those of `g` for all `i, j` in
`[0, vertexCount)`; for an uninitialized (or null) graph it returns no graph. -/
theorem C17_graph_copy (g : Graph) :
    (g.is_initialized = true → 1 ≤ g.vertices → g.vertices ≤ 1000 →
      ∃ c, graph_copy (some g) = some c ∧ c.is_initialized = true ∧
        c.vertices = g.vertices ∧ c.WF g.vertices.toNat ∧
        ∀ i j : Nat, (i : Int) < g.vertices → (j : Int) < g.vertices →
          c.dist i j = g.dist i j ∧ c.nxt i j = g.nxt i j) ∧
    (g.is_initialized = false → graph_copy (some g) = none) ∧
    graph_copy none = none := by
  refine ⟨?_, ?_, rfl⟩
  · intro hin h1 h2
    obtain ⟨n, hn⟩ := Int.eq_ofNat_of_zero_le (show 0 ≤ g.vertices by omega)
    obtain ⟨c, hc, hw, hi, hd, hx⟩ := graph_copy_spec n (by omega)
      (by rw [← hn]; simpa [MAX_VERTICES] using h2) g hn hin
    refine ⟨c, hc, hi, by rw [hw.1, hn], by rw [hn]; exact hw, ?_⟩
    intro i j hi2 hj2
    exact ⟨hd i j (by omega) (by omega), hx i j (by omega) (by omega)⟩
  · intro hin
    simp [graph_copy, hin]

/-! ## Claim C18: the iteration counter -/

theorem fw_rows_upto_eq (n k m : Nat) (g : Graph) (c : Int) :
    (List.range m).foldl (fun s i => fw_row n k i s) (g, c) =
      ((List.range m).foldl (fun g i => relax_row n k i g) g, c + m * n) := by
  induction m with
  | zero => simp
  | succ m ih =>
    rw [foldl_range_succ, foldl_range_succ, ih, fw_row_eq]
    simp only [Prod.mk.injEq, true_and]
    push_cast
    ring

theorem fw_until_counter (n k i j : Nat) (g : Graph) :
    (fw_until n k i j g).2 = (k : Int) * ((n : Int) * (n : Int)) + (i : Int) * (n : Int)
      + (j : Int) := by
  unfold fw_until
  rw [fw_upto_eq, fw_rows_upto_eq, fw_row_eq]
  simp

theorem fw_until_full (n : Nat) (g : Graph) : fw_until n n 0 0 g = fw_main n (g, 0) := by
  unfold fw_until fw_main fw_row
  simp

theorem counter_bound {n k i j : Nat} (hn : n ≤ 1000) (hk : k < n) (hi : i < n) (hj : j ≤ n) :
    k * (n * n) + i * n + j ≤ 1000000000 := by
  have h1 : i * n + j ≤ n * n := by
    have : (i + 1) * n ≤ n * n := Nat.mul_le_mul_right n (by omega)
    have e : (i + 1) * n = i * n + n := by ring
    omega
  have h2 : (k + 1) * (n * n) ≤ n * (n * n) := Nat.mul_le_mul_right (n * n) (by omega)
  have e2 : (k + 1) * (n * n) = k * (n * n) + n * n := by ring
  have h3 : n * n ≤ 1000 * 1000 := Nat.mul_le_mul hn hn
  have h4 : n * (n * n) ≤ 1000 * (1000 * 1000) := Nat.mul_le_mul hn h3
  omega

theorem cube_bound {n : Nat} (hn : n ≤ 1000) : n * (n * n) ≤ 1000000000 := by
  have h3 : n * n ≤ 1000 * 1000 := Nat.mul_le_mul hn hn
  have h4 : n * (n * n) ≤ 1000 * (1000 * 1000) := Nat.mul_le_mul hn h3
  omega

theorem fill_result_iterations (g : Graph) (n : Nat) (c : Int) :
    (fill_result g n c).iterations = c := by
  unfold fill_result
  split <;> rfl

/-- Claim C18: for every valid graph with `n` vertices, `floyd_warshall_execute` reports
`iterations = n * n * n`; as `n <= 1000` this is at most `10^9`, and the counter, which
stands at `k * n * n + i * n + j` when the loop variables are `(k, i, j)`, stays within
the signed 32-bit range throughout. -/
theorem C18_iterations (g : Graph) (hin : g.is_initialized = true)
    (hv : graph_validate (some g) = SUCCESS) :
    (floyd_warshall_execute (some g)).1.iterations = g.vertices * g.vertices * g.vertices ∧
    g.vertices ≤ 1000 ∧
    0 ≤ (floyd_warshall_execute (some g)).1.iterations ∧
    (floyd_warshall_execute (some g)).1.iterations ≤ 1000000000 ∧
    (1000000000 : Int) ≤ 2 ^ 31 - 1 ∧
    ∀ k i j : Nat, (k : Int) < g.vertices → (i : Int) < g.vertices → (j : Int) ≤ g.vertices →
      (fw_until g.vertices.toNat k i j g).2 =
        (k : Int) * (g.vertices * g.vertices) + (i : Int) * g.vertices + (j : Int) ∧
      0 ≤ (fw_until g.vertices.toNat k i j g).2 ∧
      (fw_until g.vertices.toNat k i j g).2 ≤ 2 ^ 31 - 1 := by
  obtain ⟨_, h1, h2, _⟩ := (validate_some_iff g).mp hv
  obtain ⟨n, hn⟩ := Int.eq_ofNat_of_zero_le (show 0 ≤ g.vertices by omega)
  have hn1000 : n ≤ 1000 := by omega
  rw [execute_of_valid hin hv, fill_result_iterations, hn, Int.toNat_ofNat, fw_main_eq]
  have hcube := cube_bound hn1000
  have hcubeZ : (n : Int) * ((n : Int) * (n : Int)) ≤ 1000000000 := by exact_mod_cast hcube
  have hnonneg : (0 : Int) ≤ (n : Int) * ((n : Int) * (n : Int)) := by positivity
  refine ⟨by ring, by omega, by simpa using hnonneg, by simpa using hcubeZ, by norm_num, ?_⟩
  intro k i j hk hi hj
  rw [fw_until_counter]
  have hb := counter_bound hn1000 (show k < n by omega) (show i < n by omega)
    (show j ≤ n by omega)
  have hbZ : (k : Int) * ((n : Int) * (n : Int)) + (i : Int) * (n : Int) + (j : Int)
      ≤ 1000000000 := by exact_mod_cast hb
  have hnn : (0 : Int) ≤ (k : Int) * ((n : Int) * (n : Int)) + (i : Int) * (n : Int)
      + (j : Int) := by positivity
  refine ⟨rfl, hnn, ?_⟩
  have : (1000000000 : Int) ≤ 2 ^ 31 - 1 := by norm_num
  exact le_trans hbZ this

/-- Witness for C18: scenario 1 (4 vertices, 64 iterations). -/
theorem C18_iterations_witness :
    scenario1_graph.is_initialized = true ∧
    graph_validate (some scenario1_graph) = SUCCESS ∧
    (floyd_warshall_execute (some scenario1_graph)).1.iterations = 4 * 4 * 4 :=
  ⟨rfl, by decide!, (C18_iterations scenario1_graph rfl (by decide!)).1⟩

/-! ## Claim C19: the simple test graph -/

theorem succ_walk_zero (g : Graph) (e c : Int) : succ_walk g e 0 c = c := rfl

theorem succ_walk_succ (g : Graph) (e : Int) (t : Nat) (c : Int) :
    succ_walk g e (t + 1) c = succ_walk g e t (g.nxt c.toNat e.toNat) := rfl

/-- Each element of the successor walk is the stored successor of the one before. -/
theorem succ_walk_step (g : Graph) (e : Int) (t : Nat) :
    ∀ c, succ_walk g e (t + 1) c = g.nxt (succ_walk g e t c).toNat e.toNat := by
  induction t with
  | zero => intro c; rfl
  | succ t ih =>
    intro c
    rw [succ_walk_succ, ih, succ_walk_succ]

theorem path_count_no_path (g : Graph) (e : Int) (t : Nat) :
    ∀ (c : Int) (count fuel : Nat), (∀ s, s ≤ t → succ_walk g e s c ≠ e) →
      succ_walk g e (t + 1) c = -1 → t + 1 ≤ fuel →
      path_count g e fuel c count = CountResult.no_path := by
  induction t with
  | zero =>
    intro c count fuel hne hend hfuel
    obtain ⟨f, rfl⟩ : ∃ f, fuel = f + 1 := ⟨fuel - 1, by omega⟩
    have h0 : c ≠ e := hne 0 (le_refl 0)
    have h1 : g.nxt c.toNat e.toNat = -1 := hend
    simp [path_count, h0, h1]
  | succ t ih =>
    intro c count fuel hne hend hfuel
    obtain ⟨f, rfl⟩ : ∃ f, fuel = f + 1 := ⟨fuel - 1, by omega⟩
    have h0 : c ≠ e := hne 0 (by omega)
    by_cases h1 : g.nxt c.toNat e.toNat = -1
    · simp [path_count, h0, h1]
    · simp only [path_count, h0, h1, if_false]
      refine ih _ (count + 1) f ?_ ?_ (by omega)
      · intro s hs
        have := hne (s + 1) (by omega)
        rwa [succ_walk_succ] at this
      · rwa [succ_walk_succ] at hend

theorem path_count_counted (g : Graph) (e : Int) (fuel : Nat) :
    ∀ (c : Int) (count m : Nat), path_count g e fuel c count = CountResult.counted m →
      ∃ t, m = count + t ∧ t ≤ fuel ∧ succ_walk g e t c = e ∧
        ∀ s, s < t → succ_walk g e s c ≠ e ∧ succ_walk g e (s + 1) c ≠ -1 := by
  induction fuel with
  | zero =>
    intro c count m h
    by_cases h0 : c = e
    · simp only [path_count, h0, if_true, CountResult.counted.injEq] at h
      exact ⟨0, by omega, le_refl 0, h0, fun s hs => absurd hs (Nat.not_lt_zero s)⟩
    · simp [path_count, h0] at h
  | succ f ih =>
    intro c count m h
    by_cases h0 : c = e
    · simp only [path_count, h0, if_true, CountResult.counted.injEq] at h
      exact ⟨0, by omega, Nat.zero_le _, h0, fun s hs => absurd hs (Nat.not_lt_zero s)⟩
    · by_cases h1 : g.nxt c.toNat e.toNat = -1
      · simp [path_count, h0, h1] at h
      · simp only [path_count, h0, h1, if_false] at h
        obtain ⟨t, e1, e2, e3, e4⟩ := ih _ _ _ h
        refine ⟨t + 1, by omega, by omega, by rw [succ_walk_succ]; exact e3, ?_⟩
        intro s hs
        cases s with
        | zero => exact ⟨h0, h1⟩
        | succ s =>
          have := e4 s (by omega)
          exact ⟨by rw [succ_walk_succ]; exact this.1,
            by rw [succ_walk_succ]; exact this.2⟩

theorem path_build_eq (g : Graph) (e : Int) (steps : Nat) :
    ∀ c, path_build g e steps c =
      (List.range steps).map (fun t => succ_walk g e (t + 1) c) := by
  induction steps with
  | zero => intro c; rfl
  | succ n ih =>
    intro c
    rw [path_build, ih, List.range_succ_eq_map, List.map_cons, List.map_map]
    rfl

theorem path_list_eq (g : Graph) (e : Int) (t : Nat) (c : Int) :
    c :: path_build g e t c = (List.range (t + 1)).map (fun s => succ_walk g e s c) := by
  rw [path_build_eq, List.range_succ_eq_map, List.map_cons, List.map_map]
  rfl

/-- The guards of `floyd_warshall_get_path`. -/
theorem get_path_guard (fuel : Nat) (g : Graph) (start end_v : Int)
    (h : g.is_initialized = false ∨ start < 0 ∨ start ≥ g.vertices ∨ end_v < 0 ∨
      end_v ≥ g.vertices ∨ g.dist start.toNat end_v.toNat ≥ INFINITY_VALUE) :
    floyd_warshall_get_path fuel (some g) start end_v = some (none, 0) := by
  unfold floyd_warshall_get_path
  by_cases h1 : (!g.is_initialized) = true ∨ start < 0 ∨ start ≥ g.vertices ∨ end_v < 0 ∨
      end_v ≥ g.vertices
  · simp only [h1, if_true]
  · have h2 : g.dist start.toNat end_v.toNat ≥ INFINITY_VALUE := by
      rcases h with h | h | h | h | h | h
      · exact absurd (Or.inl (by rw [h]; rfl)) h1
      · exact absurd (Or.inr (Or.inl h)) h1
      · exact absurd (Or.inr (Or.inr (Or.inl h))) h1
      · exact absurd (Or.inr (Or.inr (Or.inr (Or.inl h)))) h1
      · exact absurd (Or.inr (Or.inr (Or.inr (Or.inr h)))) h1
      · exact h
    simp only [h1, h2, if_false, if_true]

/-- After the guards, `floyd_warshall_get_path` is decided by the counting loop. -/
theorem get_path_unguarded (fuel : Nat) (g : Graph) (start end_v : Int)
    (h : ¬ (g.is_initialized = false ∨ start < 0 ∨ start ≥ g.vertices ∨ end_v < 0 ∨
      end_v ≥ g.vertices ∨ g.dist start.toNat end_v.toNat ≥ INFINITY_VALUE)) :
    floyd_warshall_get_path fuel (some g) start end_v =
      match path_count g end_v fuel start 1 with
      | .running => none
      | .no_path => some (none, 0)
      | .counted count =>
        some (some (start :: path_build g end_v (count - 1) start), (count : Int)) := by
  have h1 : ¬ ((!g.is_initialized) = true ∨ start < 0 ∨ start ≥ g.vertices ∨ end_v < 0 ∨
      end_v ≥ g.vertices) := by
    intro hc
    apply h
    rcases hc with hc | hc | hc | hc | hc
    · left
      simpa using hc
    · exact Or.inr (Or.inl hc)
    · exact Or.inr (Or.inr (Or.inl hc))
    · exact Or.inr (Or.inr (Or.inr (Or.inl hc)))
    · exact Or.inr (Or.inr (Or.inr (Or.inr (Or.inl hc))))
  have h2 : ¬ (g.dist start.toNat end_v.toNat ≥ INFINITY_VALUE) := fun hc =>
    h (Or.inr (Or.inr (Or.inr (Or.inr (Or.inr hc)))))
  unfold floyd_warshall_get_path
  simp only [h1, h2, if_false]


theorem path_count_reaches (g : Graph) (e : Int) (t : Nat) :
    ∀ (c : Int) (count fuel : Nat),
      (∀ s, s < t → succ_walk g e s c ≠ e ∧ succ_walk g e (s + 1) c ≠ -1) →
      succ_walk g e t c = e → t ≤ fuel →
      path_count g e fuel c count = CountResult.counted (count + t) := by
  induction t with
  | zero =>
    intro c count fuel _ hend _
    have h0 : c = e := hend
    cases fuel <;> simp [path_count, h0]
  | succ t ih =>
    intro c count fuel hne hend hfuel
    obtain ⟨f, rfl⟩ : ∃ f, fuel = f + 1 := ⟨fuel - 1, by omega⟩
    have h0 : c ≠ e := (hne 0 (by omega)).1
    have h1 : g.nxt c.toNat e.toNat ≠ -1 := (hne 0 (by omega)).2
    simp only [path_count, h0, h1, if_false]
    rw [ih _ (count + 1) f ?_ ?_ (by omega)]
    · congr 1
      omega
    · intro s hs
      have := hne (s + 1) (by omega)
      exact ⟨by rw [← succ_walk_succ]; exact this.1, by rw [← succ_walk_succ]; exact this.2⟩
    · rwa [succ_walk_succ] at hend

/-- Claim C14: `floyd_warshall_get_path` returns either no path (null, `path_length = 0`) or a
complete walk, never a partial one.  It returns no path for a null or uninitialized graph, for
`start` or `end` outside `[0, vertices)`, when `distance[start][end] >= INFINITY_VALUE`, and
(once the loop has run its `t + 1` steps) when the successor walk reaches `-1` before `end`.
When it returns at all, the result is no path or the list of the first `t + 1` elements of the
successor walk from `start`, where `t` is the first step at which the walk is at `end`: its element
`0` is `start`, its last element is `end`, element `s + 1` is `successor[element s][end]`, and
`path_length = t + 1`.  If the walk reaches `end` at step `t` without meeting `-1`, the call
returns that walk as soon as the loop has run `t` steps. -/
theorem C14_get_path_complete_or_none (fuel : Nat) (g : Graph) (start end_v : Int) :
    floyd_warshall_get_path fuel none start end_v = some (none, 0) ∧
    ((g.is_initialized = false ∨ start < 0 ∨ start ≥ g.vertices ∨ end_v < 0 ∨
        end_v ≥ g.vertices ∨ g.dist start.toNat end_v.toNat ≥ INFINITY_VALUE) →
      floyd_warshall_get_path fuel (some g) start end_v = some (none, 0)) ∧
    (∀ t, (∀ s, s ≤ t → succ_walk g end_v s start ≠ end_v) →
      succ_walk g end_v (t + 1) start = -1 → t + 1 ≤ fuel →
      floyd_warshall_get_path fuel (some g) start end_v = some (none, 0)) ∧
    (∀ r, floyd_warshall_get_path fuel (some g) start end_v = some r →
      r = (none, 0) ∨
      ∃ (t : Nat) (path : List Int), r = (some path, ((t + 1 : Nat) : Int)) ∧ t ≤ fuel ∧
        path = (List.range (t + 1)).map (fun s => succ_walk g end_v s start) ∧
        path.length = t + 1 ∧ path[0]? = some start ∧ path[t]? = some end_v ∧
        path.getLast? = some end_v ∧
        (∀ s, s < t → ∀ a b, path[s]? = some a → path[s + 1]? = some b →
          b = g.nxt a.toNat end_v.toNat ∧ a ≠ end_v ∧ b ≠ -1)) ∧
    (∀ t, (∀ s, s < t → succ_walk g end_v s start ≠ end_v ∧
          succ_walk g end_v (s + 1) start ≠ -1) →
      succ_walk g end_v t start = end_v → t ≤ fuel →
      ¬ (g.is_initialized = false ∨ start < 0 ∨ start ≥ g.vertices ∨ end_v < 0 ∨
        end_v ≥ g.vertices ∨ g.dist start.toNat end_v.toNat ≥ INFINITY_VALUE) →
      floyd_warshall_get_path fuel (some g) start end_v =
        some (some ((List.range (t + 1)).map (fun s => succ_walk g end_v s start)),
          ((t + 1 : Nat) : Int))) := by
  refine ⟨rfl, get_path_guard fuel g start end_v, ?_, ?_, ?_⟩
  · intro t hne hend hfuel
    by_cases hg : g.is_initialized = false ∨ start < 0 ∨ start ≥ g.vertices ∨ end_v < 0 ∨
        end_v ≥ g.vertices ∨ g.dist start.toNat end_v.toNat ≥ INFINITY_VALUE
    · exact get_path_guard fuel g start end_v hg
    · rw [get_path_unguarded fuel g start end_v hg,
        path_count_no_path g end_v t start 1 fuel hne hend hfuel]
  · intro r hr
    by_cases hg : g.is_initialized = false ∨ start < 0 ∨ start ≥ g.vertices ∨ end_v < 0 ∨
        end_v ≥ g.vertices ∨ g.dist start.toNat end_v.toNat ≥ INFINITY_VALUE
    · rw [get_path_guard fuel g start end_v hg] at hr
      exact Or.inl (Option.some.inj hr).symm
    · rw [get_path_unguarded fuel g start end_v hg] at hr
      cases hc : path_count g end_v fuel start 1 with
      | running => rw [hc] at hr; exact absurd hr (by simp)
      | no_path =>
        rw [hc] at hr
        exact Or.inl (Option.some.inj hr).symm
      | counted m =>
        rw [hc] at hr
        obtain ⟨t, e1, e2, e3, e4⟩ := path_count_counted g end_v fuel start 1 m hc
        right
        have hm : m - 1 = t := by omega
        have hm2 : m = t + 1 := by omega
        have hget : ∀ s, s ≤ t →
            ((List.range (t + 1)).map (fun s => succ_walk g end_v s start))[s]? =
              some (succ_walk g end_v s start) := by
          intro s hs
          rw [List.getElem?_map, List.getElem?_range (by omega)]
          rfl
        refine ⟨t, (List.range (t + 1)).map (fun s => succ_walk g end_v s start), ?_, e2, rfl,
          by simp, ?_, ?_, ?_, ?_⟩
        · rw [← Option.some.inj hr, hm, path_list_eq, hm2]
        · rw [hget 0 (Nat.zero_le _)]; rfl
        · rw [hget t (le_refl _), e3]
        · rw [List.getLast?_eq_getElem?]
          simp only [List.length_map, List.length_range, Nat.add_sub_cancel]
          rw [hget t (le_refl _), e3]
        · intro s hs a b ha hb
          rw [hget s (by omega)] at ha
          rw [hget (s + 1) (by omega)] at hb
          have ha2 := Option.some.inj ha
          have hb2 := Option.some.inj hb
          subst ha2
          subst hb2
          exact ⟨succ_walk_step g end_v s start, (e4 s hs).1, (e4 s hs).2⟩
  · intro t hne hend hfuel hg
    rw [get_path_unguarded fuel g start end_v hg,
      path_count_reaches g end_v t start 1 fuel hne hend hfuel]
    have h2 : 1 + t = t + 1 := by omega
    simp only [h2, Nat.add_sub_cancel, path_list_eq]


/-! ## Claim C20: successor `-1` and the sentinel distance -/

theorem succinv_create (n : Int) (g : Graph) (h : graph_create n = some g) :
    ∃ m : Nat, g.WF m ∧ g.is_initialized = true ∧ SuccInv m g := by
  have hr : ¬ (n ≤ 0 ∨ n > MAX_VERTICES) := by
    intro hc
    rw [(graph_create_none_iff n).mpr hc] at h
    exact absurd h (by simp)
  obtain ⟨m, rfl⟩ := Int.eq_ofNat_of_zero_le (show 0 ≤ n by omega)
  obtain ⟨g2, hg2, hw, hin, hd, hn⟩ := graph_create_spec m (by omega) (by omega)
  rw [h] at hg2
  obtain rfl := Option.some.inj hg2
  refine ⟨m, hw, hin, ?_⟩
  intro i j hi hj
  rw [hd i j hi hj, hn i j hi hj]
  refine ⟨?_, fun _ => rfl, fun hc => absurd rfl hc⟩
  split_ifs <;> norm_num [INFINITY_VALUE]

theorem succinv_add {m : Nat} {g g2 : Graph} (hw : g.WF m) (hin : g.is_initialized = true)
    (hs : SuccInv m g) (from_v to_v : Int) (w : ℚ) (hlt : w < INFINITY_VALUE)
    (h : graph_add_edge (some g) from_v to_v w = (SUCCESS, some g2)) :
    g2.WF m ∧ g2.is_initialized = true ∧ SuccInv m g2 := by
  by_cases hr : from_v < 0 ∨ from_v ≥ g.vertices ∨ to_v < 0 ∨ to_v ≥ g.vertices
  · simp [graph_add_edge, hin, hr] at h
  · have hv : g.vertices = (m : Int) := hw.1
    have h1 : 0 ≤ from_v := by omega
    have h2 : from_v < g.vertices := by omega
    have h3 : 0 ≤ to_v := by omega
    have h4 : to_v < g.vertices := by omega
    rw [add_edge_in_range hin from_v to_v h1 h2 h3 h4 w] at h
    have hg2 : g2 = (g.setDist from_v.toNat to_v.toNat w).setNext from_v.toNat to_v.toNat to_v :=
      (Option.some.inj (Prod.mk.inj h).2).symm
    have hf : from_v.toNat < m := by omega
    have ht : to_v.toNat < m := by omega
    obtain ⟨e1, e2, e3⟩ := add_edge_effect hw hf ht w to_v
    rw [hg2]
    refine ⟨e1, by simpa using hin, ?_⟩
    intro i j hi hj
    rw [e2 i j, e3 i j]
    by_cases hc : i = from_v.toNat ∧ j = to_v.toNat
    · simp only [hc, and_self, if_true]
      refine ⟨le_of_lt hlt, fun hx => ?_, fun _ => hlt⟩
      omega
    · simp only [hc, if_false]
      exact hs i j hi hj

theorem succinv_relax {m : Nat} {g : Graph} (hw : g.WF m) (hs : SuccInv m g) {k i j : Nat}
    (hk : k < m) (hi : i < m) (hj : j < m) : SuccInv m (relax g k i j) := by
  intro a b ha hb
  rw [relax_dist hw k hi hj a b, relax_nxt hw k hi hj a b]
  by_cases hc : fires g k i j ∧ a = i ∧ b = j
  · simp only [hc, and_self, if_true]
    obtain ⟨hf, rfl, rfl⟩ := hc
    obtain ⟨f1, f2, f3⟩ := hf
    have hlt : g.dist a k + g.dist k b < INFINITY_VALUE :=
      lt_of_lt_of_le f3 (hs a b ha hb).1
    have hne : g.nxt a k ≠ -1 := by
      intro hx
      have hd := (hs a k ha hk).2.1 hx
      by_cases hak : a = k
      · subst hak
        rw [if_pos rfl] at hd
        rw [hd] at f3
        linarith
      · rw [if_neg hak] at hd
        rw [hd] at f1
        exact absurd f1 (lt_irrefl _)
    exact ⟨le_of_lt hlt, fun hx => absurd hx hne, fun _ => hlt⟩
  · simp only [hc, if_false]
    exact hs a b ha hb

theorem relax_initialized (g : Graph) (k i j : Nat) :
    (relax g k i j).is_initialized = g.is_initialized := by
  rw [relax_eq_fires]
  split_ifs <;> simp

theorem succinv_exec {m : Nat} {g g2 : Graph} (hw : g.WF m) (hin : g.is_initialized = true)
    (hs : SuccInv m g) (h : (floyd_warshall_execute (some g)).2 = some g2) :
    g2.WF m ∧ g2.is_initialized = true ∧ SuccInv m g2 := by
  by_cases hv : graph_validate (some g) = SUCCESS
  · rw [execute_of_valid hin hv, fw_main_eq] at h
    have hg2 : g2 = relax_upto g.vertices.toNat g.vertices.toNat g := (Option.some.inj h).symm
    have hm : g.vertices.toNat = m := by rw [hw.1]; rfl
    rw [hm] at hg2
    rw [hg2]
    refine relax_upto_preserves
      (fun x => x.WF m ∧ x.is_initialized = true ∧ SuccInv m x) m ?_ m (le_refl m) g
      ⟨hw, hin, hs⟩
    intro x k i j hk hi hj hx
    exact ⟨relax_WF hx.1 k i j, by rw [relax_initialized]; exact hx.2.1,
      succinv_relax hx.1 hx.2.2 hk hi hj⟩
  · have : floyd_warshall_execute (some g) = (result_init, some g) := by
      simp [floyd_warshall_execute, hin, hv]
    rw [this] at h
    obtain rfl := Option.some.inj h
    exact ⟨hw, hin, hs⟩

theorem reachable_succinv {g : Graph} (h : Reachable g) :
    ∃ m : Nat, g.WF m ∧ g.is_initialized = true ∧ SuccInv m g := by
  induction h with
  | create n g hc => exact succinv_create n g hc
  | add g g2 from_v to_v w _ hlt hadd ih =>
    obtain ⟨m, hw, hin, hs⟩ := ih
    exact ⟨m, succinv_add hw hin hs from_v to_v w hlt hadd⟩
  | exec g g2 _ hex ih =>
    obtain ⟨m, hw, hin, hs⟩ := ih
    exact ⟨m, succinv_exec hw hin hs hex⟩

theorem one_arc_reachable : Reachable one_arc_graph :=
  Reachable.exec one_arc_graph one_arc_graph
    (Reachable.add fresh2_graph one_arc_graph 0 1 5
      (Reachable.create 2 fresh2_graph fresh2_create) (by norm_num [INFINITY_VALUE])
      (by decide!))
    (by decide!)

/-- Counterexample to C20 as stated: in the graph returned by `graph_create(2)`, with no edge
inserted, `next[0][0] = -1` although `distance[0][0] = 0` is below the sentinel, so the
equivalence fails on the diagonal; and after the successful `graph_add_edge(0, 1, 2e9)`,
`next[0][1] = 1` although `distance[0][1]` is not below the sentinel. -/
theorem C20_counterexample_diagonal :
    graph_create 2 = some fresh2_graph ∧
    ¬ (fresh2_graph.nxt 0 0 = -1 ↔ ¬ fresh2_graph.dist 0 0 < INFINITY_VALUE) ∧
    graph_add_edge (some fresh2_graph) 0 1 2000000000 = (SUCCESS, some heavy_arc_graph) ∧
    ¬ (heavy_arc_graph.nxt 0 1 = -1 ↔ ¬ heavy_arc_graph.dist 0 1 < INFINITY_VALUE) := by
  refine ⟨by decide!, ?_, by decide!, ?_⟩
  · have h1 : fresh2_graph.nxt 0 0 = -1 := by decide!
    have h2 : fresh2_graph.dist 0 0 < INFINITY_VALUE := by decide!
    intro h
    exact (h.mp h1) h2
  · have h1 : heavy_arc_graph.nxt 0 1 ≠ -1 := by decide!
    have h2 : ¬ heavy_arc_graph.dist 0 1 < INFINITY_VALUE := by decide!
    intro h
    exact h1 (h.mpr h2)

/-- Claim C20, amended: in every graph reachable from `graph_create` by successful
`graph_add_edge` calls with a weight below `INFINITY_VALUE` and by `floyd_warshall_execute` runs,
for all vertices `i ≠ j`: `next[i][j] = -1` if and only if `distance[i][j]` is not below the
sentinel, and the distance is then equal to the sentinel; on the diagonal `next[i][i] = -1`
implies `distance[i][i] = 0`, and `next[i][i] ≠ -1` implies that `distance[i][i]` is below the
sentinel. -/
theorem C20_successor_invariant (g : Graph) (h : Reachable g) (i j : Nat)
    (hi : (i : Int) < g.vertices) (hj : (j : Int) < g.vertices) :
    (i ≠ j → (g.nxt i j = -1 ↔ ¬ g.dist i j < INFINITY_VALUE)) ∧
    (i ≠ j → g.nxt i j = -1 → g.dist i j = INFINITY_VALUE) ∧
    (g.nxt i i = -1 → g.dist i i = 0) ∧
    (g.nxt i i ≠ -1 → g.dist i i < INFINITY_VALUE) := by
  obtain ⟨m, hw, _, hs⟩ := reachable_succinv h
  have hv : g.vertices = (m : Int) := hw.1
  have hi2 : i < m := by omega
  have hj2 : j < m := by omega
  obtain ⟨_, b1, b2⟩ := hs i j hi2 hj2
  obtain ⟨_, c1, c2⟩ := hs i i hi2 hi2
  refine ⟨fun hne => ⟨fun hx => ?_, fun hx => ?_⟩, fun hne hx => ?_, fun hx => ?_, c2⟩
  · rw [b1 hx, if_neg hne]
    exact lt_irrefl _
  · by_contra hc
    exact hx (b2 hc)
  · rw [b1 hx, if_neg hne]
  · rw [c1 hx, if_pos rfl]

theorem C20_successor_invariant_witness :
    Reachable one_arc_graph ∧ ((0 : Nat) : Int) < one_arc_graph.vertices ∧
    ((1 : Nat) : Int) < one_arc_graph.vertices ∧
    ((0 ≠ 1 → (one_arc_graph.nxt 0 1 = -1 ↔ ¬ one_arc_graph.dist 0 1 < INFINITY_VALUE)) ∧
    (0 ≠ 1 → one_arc_graph.nxt 0 1 = -1 → one_arc_graph.dist 0 1 = INFINITY_VALUE) ∧
    (one_arc_graph.nxt 0 0 = -1 → one_arc_graph.dist 0 0 = 0) ∧
    (one_arc_graph.nxt 0 0 ≠ -1 → one_arc_graph.dist 0 0 < INFINITY_VALUE)) :=
  ⟨one_arc_reachable, by decide, by decide,
    C20_successor_invariant one_arc_graph one_arc_reachable 0 1 (by decide) (by decide)⟩


/-! ## Claim C21: graph_add_edge on an uninitialized graph -/

/-- Counterexample to C21 as stated: on an allocated but uninitialized graph,
`graph_add_edge(g, 0, 1, 5.0)` returns `ERROR_NULL_POINTER`, which is not `ERROR_INVALID_INPUT`,
the code the same call gives for an out-of-range index on an initialized graph. -/
theorem C21_counterexample_null_pointer_code :
    raw2_graph.is_initialized = false ∧
    (graph_add_edge (some raw2_graph) 0 1 5).1 = ERROR_NULL_POINTER ∧
    (graph_add_edge (some raw2_graph) 0 1 5).1 ≠ ERROR_INVALID_INPUT ∧
    (graph_add_edge (some fresh2_graph) 0 5 5).1 = ERROR_INVALID_INPUT ∧
    (graph_add_edge (some raw2_graph) 0 1 5).1 ≠ (graph_add_edge (some fresh2_graph) 0 5 5).1 := by
  refine ⟨rfl, by decide!, by decide!, by decide!, by decide!⟩

/-- Claim C21, amended: `graph_add_edge` called on an uninitialized graph fails with
`ERROR_NULL_POINTER`, the result it gives for a null graph (and not the `ERROR_INVALID_INPUT` of
out-of-range indices), whatever the indices and the weight, and leaves the graph, both matrices
included, unchanged. -/
theorem C21_add_edge_uninitialized (g : Graph) (hin : g.is_initialized = false)
    (from_v to_v : Int) (w : ℚ) :
    graph_add_edge (some g) from_v to_v w = (ERROR_NULL_POINTER, some g) ∧
    (graph_add_edge (some g) from_v to_v w).1 = (graph_add_edge none from_v to_v w).1 ∧
    (graph_add_edge (some g) from_v to_v w).1 ≠ ERROR_INVALID_INPUT ∧
    (∀ post, (graph_add_edge (some g) from_v to_v w).2 = some post →
      post.distance = g.distance ∧ post.next = g.next) := by
  have h : graph_add_edge (some g) from_v to_v w = (ERROR_NULL_POINTER, some g) := by
    simp [graph_add_edge, hin]
  rw [h]
  refine ⟨rfl, rfl, fun hc => ReturnCode.noConfusion hc, ?_⟩
  intro post hp
  obtain rfl := Option.some.inj hp
  exact ⟨rfl, rfl⟩

theorem C21_add_edge_uninitialized_witness :
    raw2_graph.is_initialized = false ∧
    graph_add_edge (some raw2_graph) 0 1 5 = (ERROR_NULL_POINTER, some raw2_graph) ∧
    graph_add_edge (some raw2_graph) 0 7 5 = (ERROR_NULL_POINTER, some raw2_graph) :=
  ⟨rfl, (C21_add_edge_uninitialized raw2_graph rfl 0 1 5).1,
    (C21_add_edge_uninitialized raw2_graph rfl 0 7 5).1⟩


/-! ## Claim C22: self-loops -/

/-- An execution whose validation fails returns the initial report and the graph as it was. -/
theorem execute_of_invalid {g : Graph} (hv : graph_validate (some g) ≠ SUCCESS) :
    floyd_warshall_execute (some g) = (result_init, some g) := by
  simp only [floyd_warshall_execute]
  split_ifs <;> rfl

theorem relax_present (g : Graph) (k i j : Nat) :
    (relax g k i j).distance.isSome = g.distance.isSome ∧
    (relax g k i j).next.isSome = g.next.isSome := by
  rw [relax_def]
  split_ifs
  · cases hd : g.distance <;> cases hn : g.next <;> simp [Graph.setDist, Graph.setNext, hd, hn]
  · exact ⟨rfl, rfl⟩

theorem validate_invalid_of_diag {g : Graph} (hin : g.is_initialized = true)
    (h1 : 1 ≤ g.vertices) (h2 : g.vertices ≤ 1000) (hd : g.distance.isSome = true)
    (hn : g.next.isSome = true) {i : Nat} (hi : (i : Int) < g.vertices)
    (hneg : |g.dist i i| > EPSILON) : graph_validate (some g) = ERROR_INVALID_INPUT := by
  have hany : (List.range g.vertices.toNat).any
      (fun i => decide (fabs (g.dist i i) > EPSILON)) = true := by
    rw [List.any_eq_true]
    exact ⟨i, List.mem_range.mpr (by omega), by rw [fabs_eq_abs]; exact decide_eq_true hneg⟩
  have hr : ¬ (g.vertices ≤ 0 ∨ g.vertices > MAX_VERTICES) := by
    simp only [MAX_VERTICES]
    omega
  have hd2 : g.distance.isNone = false := by
    cases hx : g.distance
    · rw [hx] at hd; exact absurd hd (by simp)
    · rfl
  have hn2 : g.next.isNone = false := by
    cases hx : g.next
    · rw [hx] at hn; exact absurd hn (by simp)
    · rfl
  simp [graph_validate, hin, hr, hd2, hn2, hany]

/-- An optimized execution whose validation fails returns the initial report and the graph as it
was. -/
theorem execute_optimized_of_invalid {g : Graph} (hv : graph_validate (some g) ≠ SUCCESS) :
    floyd_warshall_execute_optimized (some g) = (result_init, some g) := by
  simp only [floyd_warshall_execute_optimized]
  split_ifs <;> rfl

/-- Claim C26: whenever `floyd_warshall_execute` returns `has_negative_cycle = true`, the graph
it leaves behind has a diagonal entry below `-EPSILON` and fails `graph_validate` (with
`ERROR_INVALID_INPUT`), so an immediately following `floyd_warshall_execute` or
`floyd_warshall_execute_optimized` on that graph returns `success = false` with
`has_negative_cycle = false` and leaves the graph unchanged. -/
theorem C26_negative_cycle_blocks_rerun (graph : Option Graph)
    (h : (floyd_warshall_execute graph).1.has_negative_cycle = true) :
    ∃ post, (floyd_warshall_execute graph).2 = some post ∧
      (∃ i : Nat, (i : Int) < post.vertices ∧ post.dist i i < -EPSILON) ∧
      graph_validate (some post) = ERROR_INVALID_INPUT ∧
      (floyd_warshall_execute (some post)).1.success = false ∧
      (floyd_warshall_execute (some post)).1.has_negative_cycle = false ∧
      (floyd_warshall_execute (some post)).2 = some post ∧
      (floyd_warshall_execute_optimized (some post)).1.success = false ∧
      (floyd_warshall_execute_optimized (some post)).1.has_negative_cycle = false ∧
      (floyd_warshall_execute_optimized (some post)).2 = some post := by
  cases graph with
  | none => exact absurd h (by simp [floyd_warshall_execute, result_init])
  | some g =>
    by_cases hin : g.is_initialized = true
    swap
    · exact absurd h (by simp [floyd_warshall_execute, hin, result_init])
    by_cases hv : graph_validate (some g) = SUCCESS
    swap
    · rw [execute_of_invalid hv] at h
      exact absurd h (by simp [result_init])
    rw [execute_of_valid hin hv] at h ⊢
    obtain ⟨_, v1, v2, vd, vn, _⟩ := (validate_some_iff g).mp hv
    obtain ⟨i, hi, hneg⟩ := (fill_result_scan _ _ _).1.mp h
    obtain ⟨fv, fi⟩ := fw_main_frame g.vertices.toNat g 0
    have hpres : (fw_main g.vertices.toNat (g, 0)).1.distance.isSome = true ∧
        (fw_main g.vertices.toNat (g, 0)).1.next.isSome = true :=
      fw_main_preserves (fun x => x.distance.isSome = true ∧ x.next.isSome = true)
        (fun x k i j hx => by
          obtain ⟨p1, p2⟩ := relax_present x k i j
          exact ⟨by rw [p1]; exact hx.1, by rw [p2]; exact hx.2⟩)
        g.vertices.toNat (g, 0) ⟨vd, vn⟩
    have hi2 : (i : Int) < (fw_main g.vertices.toNat (g, 0)).1.vertices := by
      rw [fv]
      omega
    have heps : (0 : ℚ) < EPSILON := by norm_num [EPSILON]
    have habs : |(fw_main g.vertices.toNat (g, 0)).1.dist i i| > EPSILON := by
      rw [abs_of_neg (by linarith)]
      linarith
    have hval : graph_validate (some (fw_main g.vertices.toNat (g, 0)).1) =
        ERROR_INVALID_INPUT :=
      validate_invalid_of_diag (by rw [fi]; exact hin) (by rw [fv]; exact v1)
        (by rw [fv]; exact v2) hpres.1 hpres.2 hi2 habs
    have hne : graph_validate (some (fw_main g.vertices.toNat (g, 0)).1) ≠ SUCCESS := by
      rw [hval]
      exact fun hc => ReturnCode.noConfusion hc
    refine ⟨_, rfl, ⟨i, hi2, hneg⟩, hval, ?_⟩
    rw [execute_of_invalid hne, execute_optimized_of_invalid hne]
    exact ⟨rfl, rfl, rfl, rfl, rfl, rfl⟩

theorem C26_negative_cycle_blocks_rerun_witness :
    (floyd_warshall_execute (build_graph 3 late_cycle_edges)).1.has_negative_cycle = true ∧
    ∃ post, (floyd_warshall_execute (build_graph 3 late_cycle_edges)).2 = some post ∧
      (∃ i : Nat, (i : Int) < post.vertices ∧ post.dist i i < -EPSILON) ∧
      graph_validate (some post) = ERROR_INVALID_INPUT ∧
      (floyd_warshall_execute (some post)).1.success = false ∧
      (floyd_warshall_execute (some post)).1.has_negative_cycle = false ∧
      (floyd_warshall_execute (some post)).2 = some post ∧
      (floyd_warshall_execute_optimized (some post)).1.success = false ∧
      (floyd_warshall_execute_optimized (some post)).1.has_negative_cycle = false ∧
      (floyd_warshall_execute_optimized (some post)).2 = some post :=
  ⟨by decide!, C26_negative_cycle_blocks_rerun (build_graph 3 late_cycle_edges) (by decide!)⟩


/-! ## Claim C24: safety of the successor matrix -/

/-- A step of the optimized variant either leaves the graph alone or is a firing step of the
standard relaxation. -/
theorem relax_opt_graph (g : Graph) (c : Bool) (k i j : Nat) :
    (relax_opt (g, c) k i j).1 = g ∨ (relax_opt (g, c) k i j).1 = relax g k i j := by
  have heps : (0 : ℚ) < EPSILON := by norm_num [EPSILON]
  by_cases h1 : g.dist i k < INFINITY_VALUE ∧ g.dist k j < INFINITY_VALUE
  · by_cases h2 : g.dist i k + g.dist k j < g.dist i j - EPSILON
    · right
      have h3 : g.dist i k + g.dist k j < g.dist i j := by linarith
      rw [relax_def, if_pos ⟨h1.1, h1.2, h3⟩]
      simp [relax_opt, h1, h2]
    · left
      simp [relax_opt, h1, h2]
  · left
    simp [relax_opt, h1]

theorem opt_step_graph (k i : Nat) (s : OptState) (j : Nat) :
    (opt_step k i s j).graph = s.graph ∨ (opt_step k i s j).graph = relax s.graph k i j :=
  relax_opt_graph s.graph s.changed k i j

theorem opt_pass_preserves (P : Graph → Prop) (n : Nat)
    (hP : ∀ g k i j, k < n → i < n → j < n → P g → P (relax g k i j))
    (k : Nat) (hk : k < n) (s : OptState) (hs : P s.graph) : P (opt_pass n k s).graph := by
  unfold opt_pass
  refine foldl_range_preserves (fun s : OptState => P s.graph) _ n ?_ s hs
  intro s1 i hi h1
  refine foldl_range_preserves (fun s : OptState => P s.graph) _ n ?_ s1 h1
  intro s2 j hj h2
  rcases opt_step_graph k i s2 j with h | h
  · show P (opt_step k i s2 j).graph
    rw [h]; exact h2
  · show P (opt_step k i s2 j).graph
    rw [h]; exact hP _ k i j hk hi hj h2

theorem opt_main_preserves (P : Graph → Prop) (n : Nat)
    (hP : ∀ g k i j, k < n → i < n → j < n → P g → P (relax g k i j))
    (s : OptState) (hs : P s.graph) : P (opt_main n s).graph := by
  unfold opt_main
  refine foldl_range_preserves (fun s : OptState => P s.graph) _ n ?_ s hs
  intro s1 k hk h1
  show P (if s1.changed then opt_pass n k { s1 with changed := false } else s1).graph
  split_ifs
  · exact opt_pass_preserves P n hP k hk _ h1
  · exact h1

theorem succsafe_create (n : Int) (g : Graph) (h : graph_create n = some g) :
    ∃ m : Nat, g.WF m ∧ g.is_initialized = true ∧ SuccSafe m g := by
  have hr : ¬ (n ≤ 0 ∨ n > MAX_VERTICES) := by
    intro hc
    rw [(graph_create_none_iff n).mpr hc] at h
    exact absurd h (by simp)
  obtain ⟨m, rfl⟩ := Int.eq_ofNat_of_zero_le (show 0 ≤ n by omega)
  obtain ⟨g2, hg2, hw, hin, hd, hn⟩ := graph_create_spec m (by omega) (by omega)
  rw [h] at hg2
  obtain rfl := Option.some.inj hg2
  refine ⟨m, hw, hin, ?_⟩
  intro i j hi hj
  rw [hd i j hi hj, hn i j hi hj]
  exact ⟨Or.inl rfl, fun _ => rfl⟩

theorem succsafe_add {m : Nat} {g g2 : Graph} (hw : g.WF m) (hin : g.is_initialized = true)
    (hs : SuccSafe m g) (from_v to_v : Int) (w : ℚ)
    (h : graph_add_edge (some g) from_v to_v w = (SUCCESS, some g2)) :
    g2.WF m ∧ g2.is_initialized = true ∧ SuccSafe m g2 := by
  by_cases hr : from_v < 0 ∨ from_v ≥ g.vertices ∨ to_v < 0 ∨ to_v ≥ g.vertices
  · simp [graph_add_edge, hin, hr] at h
  · have hv : g.vertices = (m : Int) := hw.1
    have h1 : 0 ≤ from_v := by omega
    have h2 : from_v < g.vertices := by omega
    have h3 : 0 ≤ to_v := by omega
    have h4 : to_v < g.vertices := by omega
    rw [add_edge_in_range hin from_v to_v h1 h2 h3 h4 w] at h
    have hg2 : g2 = (g.setDist from_v.toNat to_v.toNat w).setNext from_v.toNat to_v.toNat to_v :=
      (Option.some.inj (Prod.mk.inj h).2).symm
    have hf : from_v.toNat < m := by omega
    have ht : to_v.toNat < m := by omega
    obtain ⟨e1, e2, e3⟩ := add_edge_effect hw hf ht w to_v
    rw [hg2]
    refine ⟨e1, by simpa using hin, ?_⟩
    intro i j hi hj
    rw [e2 i j, e3 i j]
    by_cases hc : i = from_v.toNat ∧ j = to_v.toNat
    · simp only [hc, and_self, if_true]
      refine ⟨Or.inr ⟨h3, by omega⟩, fun hx => ?_⟩
      omega
    · simp only [hc, if_false]
      exact hs i j hi hj

theorem succsafe_relax {m : Nat} {g : Graph} (hw : g.WF m) (hs : SuccSafe m g) {k i j : Nat}
    (hk : k < m) (hi : i < m) (hj : j < m) : SuccSafe m (relax g k i j) := by
  intro a b ha hb
  rw [relax_dist hw k hi hj a b, relax_nxt hw k hi hj a b]
  by_cases hc : fires g k i j ∧ a = i ∧ b = j
  · simp only [hc, and_self, if_true]
    obtain ⟨hf, rfl, rfl⟩ := hc
    obtain ⟨f1, _, f3⟩ := hf
    have hne : g.nxt a k ≠ -1 := by
      intro hx
      have hd := (hs a k ha hk).2 hx
      by_cases hak : a = k
      · subst hak
        rw [if_pos rfl] at hd
        rw [hd] at f3
        linarith
      · rw [if_neg hak] at hd
        rw [hd] at f1
        exact absurd f1 (lt_irrefl _)
    refine ⟨?_, fun hx => absurd hx hne⟩
    rcases (hs a k ha hk).1 with h | h
    · exact absurd h hne
    · exact Or.inr h
  · simp only [hc, if_false]
    exact hs a b ha hb

theorem succsafe_step_ok {m : Nat} (x : Graph) (k i j : Nat) (hk : k < m) (hi : i < m)
    (hj : j < m) (hx : x.WF m ∧ x.is_initialized = true ∧ SuccSafe m x) :
    (relax x k i j).WF m ∧ (relax x k i j).is_initialized = true ∧
      SuccSafe m (relax x k i j) :=
  ⟨relax_WF hx.1 k i j, by rw [relax_initialized]; exact hx.2.1,
    succsafe_relax hx.1 hx.2.2 hk hi hj⟩

theorem succsafe_exec {m : Nat} {g g2 : Graph} (hw : g.WF m) (hin : g.is_initialized = true)
    (hs : SuccSafe m g) (h : (floyd_warshall_execute (some g)).2 = some g2) :
    g2.WF m ∧ g2.is_initialized = true ∧ SuccSafe m g2 := by
  by_cases hv : graph_validate (some g) = SUCCESS
  · rw [execute_of_valid hin hv, fw_main_eq] at h
    have hg2 : g2 = relax_upto g.vertices.toNat g.vertices.toNat g := (Option.some.inj h).symm
    have hm : g.vertices.toNat = m := by rw [hw.1]; rfl
    rw [hm] at hg2
    rw [hg2]
    exact relax_upto_preserves
      (fun x => x.WF m ∧ x.is_initialized = true ∧ SuccSafe m x) m
      (fun x k i j hk hi hj hx => succsafe_step_ok x k i j hk hi hj hx) m (le_refl m) g
      ⟨hw, hin, hs⟩
  · rw [execute_of_invalid hv] at h
    obtain rfl := Option.some.inj h
    exact ⟨hw, hin, hs⟩

theorem execute_optimized_of_valid {g : Graph} (hi : g.is_initialized = true)
    (hv : graph_validate (some g) = SUCCESS) :
    floyd_warshall_execute_optimized (some g) =
      (fill_result
          (opt_main g.vertices.toNat { graph := g, iterations := 0, changed := true }).graph
          g.vertices.toNat
          (opt_main g.vertices.toNat { graph := g, iterations := 0, changed := true }).iterations,
        some (opt_main g.vertices.toNat { graph := g, iterations := 0, changed := true }).graph) := by
  simp [floyd_warshall_execute_optimized, hi, hv]

theorem succsafe_exec_opt {m : Nat} {g g2 : Graph} (hw : g.WF m)
    (hin : g.is_initialized = true) (hs : SuccSafe m g)
    (h : (floyd_warshall_execute_optimized (some g)).2 = some g2) :
    g2.WF m ∧ g2.is_initialized = true ∧ SuccSafe m g2 := by
  by_cases hv : graph_validate (some g) = SUCCESS
  · rw [execute_optimized_of_valid hin hv] at h
    have hm : g.vertices.toNat = m := by rw [hw.1]; rfl
    rw [hm] at h
    rw [← Option.some.inj h]
    exact opt_main_preserves
      (fun x => x.WF m ∧ x.is_initialized = true ∧ SuccSafe m x) m
      (fun x k i j hk hi hj hx => succsafe_step_ok x k i j hk hi hj hx)
      { graph := g, iterations := 0, changed := true } ⟨hw, hin, hs⟩
  · rw [execute_optimized_of_invalid hv] at h
    obtain rfl := Option.some.inj h
    exact ⟨hw, hin, hs⟩

theorem reachable_succsafe {g : Graph} (h : ReachableAny g) :
    ∃ m : Nat, g.WF m ∧ g.is_initialized = true ∧ SuccSafe m g := by
  induction h with
  | create n g hc => exact succsafe_create n g hc
  | add g g2 from_v to_v w _ hadd ih =>
    obtain ⟨m, hw, hin, hs⟩ := ih
    exact ⟨m, succsafe_add hw hin hs from_v to_v w hadd⟩
  | exec g g2 _ hex ih =>
    obtain ⟨m, hw, hin, hs⟩ := ih
    exact ⟨m, succsafe_exec hw hin hs hex⟩
  | exec_opt g g2 _ hex ih =>
    obtain ⟨m, hw, hin, hs⟩ := ih
    exact ⟨m, succsafe_exec_opt hw hin hs hex⟩


theorem succ_walk_in_range {m : Nat} {g : Graph} (hs : SuccSafe m g) (start end_v : Int)
    (h1 : 0 ≤ start) (h2 : start < (m : Int)) (h4 : end_v < (m : Int))
    (t : Nat) :
    (∀ s, s ≤ t → succ_walk g end_v s start ≠ -1) →
      0 ≤ succ_walk g end_v t start ∧ succ_walk g end_v t start < (m : Int) := by
  induction t with
  | zero => intro _; exact ⟨h1, h2⟩
  | succ t ih =>
    intro hne
    obtain ⟨a1, a2⟩ := ih (fun s hs2 => hne s (by omega))
    have hstep := succ_walk_step g end_v t start
    have hlast := hne (t + 1) (le_refl _)
    rw [hstep] at hlast ⊢
    rcases (hs (succ_walk g end_v t start).toNat end_v.toNat (by omega) (by omega)).1 with h | h
    · exact absurd h hlast
    · exact h

theorem any_arc_reachable : ReachableAny one_arc_graph :=
  ReachableAny.exec_opt one_arc_graph one_arc_graph
    (ReachableAny.exec one_arc_graph one_arc_graph
      (ReachableAny.add fresh2_graph one_arc_graph 0 1 5
        (ReachableAny.create 2 fresh2_graph fresh2_create) (by decide!))
      (by decide!))
    (by decide!)

/-- Claim C24: in every graph reachable from `graph_create` by successful `graph_add_edge` calls
and runs of `floyd_warshall_execute` or `floyd_warshall_execute_optimized`, both matrices have
`vertices` rows of `vertices` cells, every `next[i][j]` is `-1` or a vertex index in
`[0, vertices)`, and for `i ≠ j` a `distance[i][j]` below the sentinel implies
`next[i][j] ≠ -1`; hence every value of `current` with which `floyd_warshall_get_path` (called
with in-range `start` and `end`) indexes the successor matrix, that is every element of the
successor walk before the first `-1`, is a vertex index. -/
theorem C24_successor_safety (g : Graph) (h : ReachableAny g) :
    g.WF g.vertices.toNat ∧
    (∀ i j : Nat, (i : Int) < g.vertices → (j : Int) < g.vertices →
      (g.nxt i j = -1 ∨ (0 ≤ g.nxt i j ∧ g.nxt i j < g.vertices)) ∧
      (i ≠ j → g.dist i j < INFINITY_VALUE → g.nxt i j ≠ -1)) ∧
    (∀ start end_v : Int, 0 ≤ start → start < g.vertices → 0 ≤ end_v → end_v < g.vertices →
      ∀ t, (∀ s, s ≤ t → succ_walk g end_v s start ≠ -1) →
        0 ≤ succ_walk g end_v t start ∧ succ_walk g end_v t start < g.vertices) := by
  obtain ⟨m, hw, _, hs⟩ := reachable_succsafe h
  have hv : g.vertices = (m : Int) := hw.1
  have hm : g.vertices.toNat = m := by rw [hv]; rfl
  refine ⟨by rw [hm]; exact hw, ?_, ?_⟩
  · intro i j hi hj
    obtain ⟨a, b⟩ := hs i j (by omega) (by omega)
    refine ⟨by rw [hv]; exact a, fun hne hlt hx => ?_⟩
    have hd := b hx
    rw [if_neg hne] at hd
    rw [hd] at hlt
    exact lt_irrefl _ hlt
  · intro start end_v h1 h2 _ h4 t hne
    rw [hv] at h2 h4 ⊢
    exact succ_walk_in_range hs start end_v h1 h2 h4 t hne

theorem C24_successor_safety_witness :
    ReachableAny one_arc_graph ∧
    one_arc_graph.WF one_arc_graph.vertices.toNat ∧
    (∀ i j : Nat, (i : Int) < one_arc_graph.vertices → (j : Int) < one_arc_graph.vertices →
      (one_arc_graph.nxt i j = -1 ∨
        (0 ≤ one_arc_graph.nxt i j ∧ one_arc_graph.nxt i j < one_arc_graph.vertices)) ∧
      (i ≠ j → one_arc_graph.dist i j < INFINITY_VALUE → one_arc_graph.nxt i j ≠ -1)) ∧
    (∀ start end_v : Int, 0 ≤ start → start < one_arc_graph.vertices → 0 ≤ end_v →
      end_v < one_arc_graph.vertices →
      ∀ t, (∀ s, s ≤ t → succ_walk one_arc_graph end_v s start ≠ -1) →
        0 ≤ succ_walk one_arc_graph end_v t start ∧
        succ_walk one_arc_graph end_v t start < one_arc_graph.vertices) :=
  ⟨any_arc_reachable, C24_successor_safety one_arc_graph any_arc_reachable⟩


/-! ## Claim C23: passes and iterations of the optimized variant -/

theorem opt_step_iterations (k i : Nat) (s : OptState) (j : Nat) :
    (opt_step k i s j).iterations = s.iterations + 1 := rfl

theorem opt_step_changed (k i : Nat) (s : OptState) (j : Nat) :
    (opt_step k i s j).changed = true ↔ (s.changed = true ∨ opt_fires s.graph k i j) := by
  show (relax_opt (s.graph, s.changed) k i j).2 = true ↔ _
  by_cases h1 : s.graph.dist i k < INFINITY_VALUE ∧ s.graph.dist k j < INFINITY_VALUE
  · by_cases h2 : s.graph.dist i k + s.graph.dist k j < s.graph.dist i j - EPSILON
    · have hf : opt_fires s.graph k i j := ⟨h1.1, h1.2, h2⟩
      simp [relax_opt, h1, h2, hf]
    · have hf : ¬ opt_fires s.graph k i j := fun hc => h2 hc.2.2
      simp [relax_opt, h1, h2, hf]
  · have hf : ¬ opt_fires s.graph k i j := fun hc => h1 ⟨hc.1, hc.2.1⟩
    simp [relax_opt, h1, hf]

/-- When the test holds the step performs the two assignments. -/
theorem opt_step_fires (k i : Nat) (s : OptState) (j : Nat) (h : opt_fires s.graph k i j) :
    (opt_step k i s j).graph =
      (s.graph.setDist i j (s.graph.dist i k + s.graph.dist k j)).setNext i j
        (s.graph.nxt i k) := by
  show (relax_opt (s.graph, s.changed) k i j).1 = _
  simp [relax_opt, h.1, h.2.1, h.2.2]

/-- When the test fails the step leaves the graph alone. -/
theorem opt_step_not_fires (k i : Nat) (s : OptState) (j : Nat)
    (h : ¬ opt_fires s.graph k i j) : (opt_step k i s j).graph = s.graph := by
  show (relax_opt (s.graph, s.changed) k i j).1 = _
  by_cases h1 : s.graph.dist i k < INFINITY_VALUE ∧ s.graph.dist k j < INFINITY_VALUE
  · have h2 : ¬ s.graph.dist i k + s.graph.dist k j < s.graph.dist i j - EPSILON :=
      fun hc => h ⟨h1.1, h1.2, hc⟩
    simp [relax_opt, h1, h2]
  · simp [relax_opt, h1]

/-- A flag that a loop body can only raise is up after the loop iff it was up before or some
iteration raised it. -/
theorem foldl_range_flag {σ : Type} (flag : σ → Bool) (fire : σ → Nat → Prop)
    (f : σ → Nat → σ) (hf : ∀ s x, flag (f s x) = true ↔ (flag s = true ∨ fire s x))
    (n : Nat) (s : σ) :
    flag ((List.range n).foldl f s) = true ↔
      (flag s = true ∨ ∃ x, x < n ∧ fire ((List.range x).foldl f s) x) := by
  induction n with
  | zero =>
    constructor
    · intro h; exact Or.inl h
    · rintro (h | ⟨x, hx, _⟩)
      · exact h
      · exact absurd hx (Nat.not_lt_zero x)
  | succ n ih =>
    rw [foldl_range_succ, hf, ih]
    constructor
    · rintro ((h | ⟨x, hx, hfx⟩) | h)
      · exact Or.inl h
      · exact Or.inr ⟨x, by omega, hfx⟩
      · exact Or.inr ⟨n, by omega, h⟩
    · rintro (h | ⟨x, hx, hfx⟩)
      · exact Or.inl (Or.inl h)
      · by_cases hxn : x = n
        · subst hxn; exact Or.inr hfx
        · exact Or.inl (Or.inr ⟨x, by omega, hfx⟩)

theorem opt_pass_changed (n k : Nat) (s : OptState) :
    (opt_pass n k s).changed = true ↔
      (s.changed = true ∨
        ∃ i, i < n ∧ ∃ j, j < n ∧ opt_fires (opt_until n k i j s).graph k i j) := by
  unfold opt_pass
  exact foldl_range_flag (fun s : OptState => s.changed)
    (fun s i => ∃ j, j < n ∧ opt_fires ((List.range j).foldl (opt_step k i) s).graph k i j)
    (fun s i => (List.range n).foldl (opt_step k i) s)
    (fun s i => foldl_range_flag (fun s : OptState => s.changed)
      (fun s j => opt_fires s.graph k i j) (opt_step k i)
      (fun s j => opt_step_changed k i s j) n s)
    n s

theorem opt_row_iterations (k i : Nat) (m : Nat) (s : OptState) :
    ((List.range m).foldl (opt_step k i) s).iterations = s.iterations + (m : Int) := by
  induction m with
  | zero => simp
  | succ m ih =>
    rw [foldl_range_succ, opt_step_iterations, ih]
    push_cast
    ring

theorem opt_rows_iterations (n k : Nat) (m : Nat) (s : OptState) :
    ((List.range m).foldl (fun s i => (List.range n).foldl (opt_step k i) s) s).iterations =
      s.iterations + (m : Int) * (n : Int) := by
  induction m with
  | zero => simp
  | succ m ih =>
    rw [foldl_range_succ, opt_row_iterations, ih]
    push_cast
    ring

theorem opt_pass_iterations (n k : Nat) (s : OptState) :
    (opt_pass n k s).iterations = s.iterations + (n : Int) * (n : Int) :=
  opt_rows_iterations n k n s

theorem opt_run_succ (n p : Nat) (s : OptState) :
    opt_run n (p + 1) s = opt_pass n p { opt_run n p s with changed := false } := by
  unfold opt_run
  rw [foldl_range_succ]

theorem opt_run_iterations (n p : Nat) (s : OptState) :
    (opt_run n p s).iterations = s.iterations + (n : Int) * (n : Int) * (p : Int) := by
  induction p with
  | zero => simp [opt_run]
  | succ p ih =>
    rw [opt_run_succ, opt_pass_iterations]
    show (opt_run n p s).iterations + _ = _
    rw [ih]
    push_cast
    ring

/-- The loop `for (k = 0; k < n && changed; k++)` after `m` values of `k` have been considered:
it has run the passes `0 .. p - 1` in full for some `p ≤ m`, every pass before the last one
raised `changed`, and if it stopped early the last pass did not. -/
theorem opt_main_passes (n : Nat) (s0 : OptState) (h0 : s0.changed = true) (m : Nat) :
    ∃ p, p ≤ m ∧ (0 < m → 0 < p) ∧
      (List.range m).foldl
        (fun s k => if s.changed then opt_pass n k { s with changed := false } else s) s0 =
        opt_run n p s0 ∧
      (∀ q, q < p → (opt_run n q s0).changed = true) ∧
      (p < m → (opt_run n p s0).changed = false) := by
  induction m with
  | zero =>
    refine ⟨0, le_refl 0, fun h => absurd h (lt_irrefl 0), rfl, ?_, fun h => absurd h (lt_irrefl 0)⟩
    intro q hq
    exact absurd hq (Nat.not_lt_zero q)
  | succ m ih =>
    obtain ⟨p, hp, hpos, heq, hearlier, hstop⟩ := ih
    rw [foldl_range_succ, heq]
    by_cases hpm : p < m
    · have hc := hstop hpm
      refine ⟨p, by omega, fun _ => hpos (by omega), by simp [hc], hearlier, fun _ => hc⟩
    · have hpe : p = m := by omega
      subst hpe
      by_cases hc : (opt_run n p s0).changed = true
      · refine ⟨p + 1, le_refl _, fun _ => Nat.succ_pos p, ?_, ?_, fun h => absurd h (lt_irrefl _)⟩
        · rw [opt_run_succ]
          simp [hc]
        · intro q hq
          by_cases hqp : q < p
          · exact hearlier q hqp
          · have hqe : q = p := by omega
            subst hqe
            exact hc
      · have hc2 : (opt_run n p s0).changed = false := by simpa using hc
        have hp0 : 0 < p := by
          by_contra hz
          have hz2 : p = 0 := by omega
          subst hz2
          have : (opt_run n 0 s0).changed = true := h0
          exact hc this
        refine ⟨p, by omega, fun _ => hp0, by simp [hc2], hearlier, fun _ => hc2⟩


/-- Claim C23: for every valid graph with `n` vertices, `floyd_warshall_execute_optimized` runs
the whole passes `k = 0, ..., p - 1` for some `p` with `1 ≤ p ≤ n`, and nothing else; every pass
`q` that is followed by another pass overwrote at least one entry, that is, at some step
`(i, j)` of pass `q` the test `candidate < distance[i][j] - EPSILON` (with both guards) held, in
which case the step performs the two assignments; when the loop stops before `k = n` no step of
its last pass passed the test.  The reported `iterations` equal `n * n * p`, at least `n * n`
and at most the `n * n * n` reported by `floyd_warshall_execute`. -/
theorem C23_optimized_passes (g : Graph) (hin : g.is_initialized = true)
    (hv : graph_validate (some g) = SUCCESS) :
    ∃ p : Nat, 1 ≤ p ∧ (p : Int) ≤ g.vertices ∧
      (floyd_warshall_execute_optimized (some g)).2 =
        some (opt_run g.vertices.toNat p { graph := g, iterations := 0, changed := true }).graph ∧
      (floyd_warshall_execute_optimized (some g)).1.iterations =
        g.vertices * g.vertices * (p : Int) ∧
      (∀ q, q + 1 < p → ∃ i j, i < g.vertices.toNat ∧ j < g.vertices.toNat ∧
        opt_fires (opt_until g.vertices.toNat q i j
          { opt_run g.vertices.toNat q { graph := g, iterations := 0, changed := true } with
            changed := false }).graph q i j) ∧
      ((p : Int) < g.vertices → ∀ i j, i < g.vertices.toNat → j < g.vertices.toNat →
        ¬ opt_fires (opt_until g.vertices.toNat (p - 1) i j
          { opt_run g.vertices.toNat (p - 1) { graph := g, iterations := 0, changed := true } with
            changed := false }).graph (p - 1) i j) ∧
      (∀ (s : OptState) (k i j : Nat), opt_fires s.graph k i j →
        (opt_step k i s j).graph =
          (s.graph.setDist i j (s.graph.dist i k + s.graph.dist k j)).setNext i j
            (s.graph.nxt i k)) ∧
      g.vertices * g.vertices ≤ (floyd_warshall_execute_optimized (some g)).1.iterations ∧
      (floyd_warshall_execute_optimized (some g)).1.iterations ≤
        (floyd_warshall_execute (some g)).1.iterations ∧
      (floyd_warshall_execute (some g)).1.iterations =
        g.vertices * g.vertices * g.vertices := by
  obtain ⟨_, h1, _, _⟩ := (validate_some_iff g).mp hv
  obtain ⟨n, hn⟩ := Int.eq_ofNat_of_zero_le (show 0 ≤ g.vertices by omega)
  have hn0 : 0 < n := by omega
  obtain ⟨p, hp, hpos, heq, hearlier, hstop⟩ :=
    opt_main_passes n { graph := g, iterations := 0, changed := true } rfl n
  have hmain : opt_main n { graph := g, iterations := 0, changed := true } =
      opt_run n p { graph := g, iterations := 0, changed := true } := heq
  have hp1 : 1 ≤ p := hpos hn0
  rw [execute_optimized_of_valid hin hv, execute_of_valid hin hv, fill_result_iterations,
    fill_result_iterations, hn, Int.toNat_ofNat, fw_main_eq, hmain, opt_run_iterations]
  have hpZ : (p : Int) ≤ (n : Int) := by exact_mod_cast hp
  have hp1Z : (1 : Int) ≤ (p : Int) := by exact_mod_cast hp1
  have hnn : (0 : Int) ≤ (n : Int) * (n : Int) := by positivity
  refine ⟨p, hp1, hpZ, rfl, by simp, ?_, ?_, fun s k i j h => opt_step_fires k i s j h, ?_, ?_,
    by simp; ring⟩
  · intro q hq
    have hc := hearlier (q + 1) hq
    rw [opt_run_succ, opt_pass_changed] at hc
    rcases hc with hc | ⟨i, hi, j, hj, hf⟩
    · exact absurd hc (by simp)
    · exact ⟨i, j, hi, hj, hf⟩
  · intro hlt i j hi hj hf
    have hc := hstop (by exact_mod_cast hlt)
    have hpp : p = (p - 1) + 1 := by omega
    rw [hpp, opt_run_succ] at hc
    have hc2 : (opt_pass n (p - 1)
        { opt_run n (p - 1) { graph := g, iterations := 0, changed := true } with
          changed := false }).changed = true :=
      (opt_pass_changed n (p - 1) _).mpr (Or.inr ⟨i, hi, j, hj, hf⟩)
    rw [hc] at hc2
    exact absurd hc2 (by simp)
  · simp only [zero_add]
    nlinarith
  · simp only [zero_add]
    have : (n : Int) * (n : Int) * (p : Int) ≤ (n : Int) * (n : Int) * (n : Int) :=
      mul_le_mul_of_nonneg_left hpZ hnn
    linarith

theorem C23_optimized_passes_witness :
    scenario1_graph.is_initialized = true ∧
    graph_validate (some scenario1_graph) = SUCCESS ∧
    ∃ p : Nat, 1 ≤ p ∧ (p : Int) ≤ scenario1_graph.vertices ∧
      (floyd_warshall_execute_optimized (some scenario1_graph)).1.iterations =
        scenario1_graph.vertices * scenario1_graph.vertices * (p : Int) :=
  ⟨rfl, by decide!,
    (C23_optimized_passes scenario1_graph rfl (by decide!)).imp
      (fun _ hp => ⟨hp.1, hp.2.1, hp.2.2.2.1⟩)⟩


/-! ## Claim C25: termination of the path reconstruction -/

end FloydWarshall
